import Mathlib

/-!
# Verification of the ARCADE vector / hybrid k-NN search core

Shallow embedding of `storage/rocksdb/rdb_vector_db.cc` (and the handler
declared in `rdb_vector_db.h`).  Bytes are modelled as `Nat` values (< 256 on
real data), byte strings as `List Nat`, and C++ `float` / `double` arithmetic
as exact rationals `ℚ`; the transcendental kernels used by
`st_distance_simple` (sin, cos, atan2, sqrt, the constant pi) and the IEEE-754
bit-level interpretation of an 8-byte double are abstracted as an explicit
oracle parameter `MathOracle`, since floating point cannot be shallowly
embedded exactly.  All the control flow — bounds checks, error returns, heap
discipline, padding, result assembly — is translated statement by statement
from the source.
-/

/-- Error outcomes of the engine, mirroring the `HA_*` codes the source
returns: `HA_ERR_ROCKSDB_CORRUPT_DATA`, `HA_ERR_QUERY_INTERRUPTED`,
`HA_ERR_UNSUPPORTED`, `HA_ERR_END_OF_FILE` and the generic
`HA_EXIT_FAILURE`. -/
inductive DbErr where
  | corruptData
  | interrupted
  | unsupported
  | endOfFile
  | exitFailure
  deriving DecidableEq, Repr

instance exceptDecEq {e a : Type} [DecidableEq e] [DecidableEq a] :
    DecidableEq (Except e a) := fun x y =>
  match x, y with
  | .ok v, .ok w =>
    if h : v = w then isTrue (by rw [h])
    else isFalse (by intro hc; cases hc; exact h rfl)
  | .ok _, .error _ => isFalse (by intro hc; cases hc)
  | .error _, .ok _ => isFalse (by intro hc; cases hc)
  | .error v, .error w =>
    if h : v = w then isTrue (by rw [h])
    else isFalse (by intro hc; cases hc; exact h rfl)

/-- Little-endian read of `n` bytes starting at index `start` (out-of-range
bytes read as 0; the theorems below track in-bounds access separately where a
claim depends on it). -/
def readLE (bytes : List Nat) (start n : Nat) : Nat :=
  (List.range n).foldr (fun i acc => acc * 256 + bytes.getD (start + i) 0) 0

/-- Big-endian read of `n` bytes starting at index `start`. -/
def readBE (bytes : List Nat) (start n : Nat) : Nat :=
  (List.range n).foldl (fun acc i => acc * 256 + bytes.getD (start + i) 0) 0

/-- Big-endian encoding of `v` on `n` bytes (as written by
`Rdb_string_writer::write_index_id` / `write_uint64`). -/
def writeBE (v : Nat) : Nat → List Nat
  | 0 => []
  | n + 1 => (v / 256 ^ n) % 256 :: writeBE v n

/-! ## Row-value decoder (`DecodeFieldFromValue`) -/

/-- One entry of `std::vector<rocksdb::BlockBasedTableOptions::FieldInfo>`:
the MySQL type code, nullability, the length-prefix width for variable-length
types and the fixed width for fixed types. -/
structure FieldInfo where
  ftype : Nat
  is_nullable : Bool
  length_bytes : Nat
  pack_length : Nat
  deriving DecidableEq, Repr

/-- `rocksdb::BlockBasedTableOptions::TableConfig` as consumed by the
decoder. -/
structure TableConfig where
  has_ttl : Bool
  null_bytes_length : Nat
  deriving DecidableEq, Repr

def MYSQL_TYPE_VARCHAR : Nat := 15
def MYSQL_TYPE_JSON : Nat := 245
def MYSQL_TYPE_BLOB : Nat := 252
def MYSQL_TYPE_GEOMETRY : Nat := 255

/-- Position in the output vector that field index `i` is written to: the
source fills `std::unordered_map index_to_result_pos` by
`index_to_result_pos[field_indexs[i]] = i` in order, so the *last* occurrence
of a field index in the request list wins. -/
def lastIdxOf (reqs : List Nat) (i : Nat) : Option Nat :=
  match reqs with
  | [] => none
  | r :: rest =>
    match lastIdxOf rest i with
    | some j => some (j + 1)
    | none => if r = i then some 0 else none

/-- Write a slice into the output vector at the slot chosen by the
`index_to_result_pos` lookup (no-op for fields that are not requested). -/
def writeSlot (out : List (List Nat)) (slot : Option Nat) (s : List Nat) :
    List (List Nat) :=
  match slot with
  | none => out
  | some j => out.set j s

/-- Was field `i` read as NULL?  The source tests
`null_bytes[i/8] & (1 << (i%8))` where `null_bytes` points at offset
`nullStart` of the value. -/
def fieldIsNull (value : List Nat) (nullStart : Nat) (hasNull : Bool)
    (f : FieldInfo) (i : Nat) : Bool :=
  f.is_nullable && hasNull && (value.getD (nullStart + i / 8) 0).testBit (i % 8)

/-- The field loop of `DecodeFieldFromValue`: walk the fields
`0 .. max_field_index` (presented as `(index, info)` pairs), advancing the
cursor `pos` and writing requested slices into `out`. -/
def decodeLoop (value : List Nat) (nullStart : Nat) (hasNull : Bool)
    (reqs : List Nat) (items : List (Nat × FieldInfo)) (pos : Nat)
    (out : List (List Nat)) : Except DbErr (List (List Nat) × Nat) :=
  match items with
  | [] => .ok (out, pos)
  | (i, f) :: rest =>
    let remaining := value.length - pos
    let slot := lastIdxOf reqs i
    if fieldIsNull value nullStart hasNull f i then
      -- null field: emit an empty slice, consume no payload
      decodeLoop value nullStart hasNull reqs rest pos (writeSlot out slot [])
    else if f.ftype = MYSQL_TYPE_VARCHAR then
      if remaining < f.length_bytes then .error .corruptData
      else
        let len := if f.length_bytes = 1 then value.getD pos 0 else readLE value pos 2
        let pos2 := pos + f.length_bytes
        if remaining - f.length_bytes < len then .error .corruptData
        else
          decodeLoop value nullStart hasNull reqs rest (pos2 + len)
            (writeSlot out slot ((value.drop pos2).take len))
    else if f.ftype = MYSQL_TYPE_BLOB ∨ f.ftype = MYSQL_TYPE_JSON ∨
        f.ftype = MYSQL_TYPE_GEOMETRY then
      if remaining < f.length_bytes then .error .corruptData
      else
        let len := readLE value pos f.length_bytes
        let pos2 := pos + f.length_bytes
        if remaining - f.length_bytes < len then .error .corruptData
        else
          decodeLoop value nullStart hasNull reqs rest (pos2 + len)
            (writeSlot out slot ((value.drop pos2).take len))
    else
      if remaining < f.pack_length then .error .corruptData
      else
        decodeLoop value nullStart hasNull reqs rest (pos + f.pack_length)
          (writeSlot out slot ((value.drop pos).take f.pack_length))

/-- Largest requested field index (`max_field_index` in the source). -/
def maxFieldIndex (reqs : List Nat) : Nat := reqs.foldl max 0

/-- Bytes the cursor advances past for the optional TTL. -/
def ttlOffset (cfg : TableConfig) : Nat := if cfg.has_ttl then 8 else 0

/-- `DecodeFieldFromValue`, with the final cursor position exposed alongside
the output slices. -/
def DecodeFieldFromValueAux (cfg : TableConfig) (fields : List FieldInfo)
    (reqs : List Nat) (value : List Nat) :
    Except DbErr (List (List Nat) × Nat) :=
  -- 2. skip the TTL bytes if configured
  if cfg.has_ttl ∧ value.length < 8 then .error .corruptData
  else
    -- 3. process null bytes
    if value.length - ttlOffset cfg < cfg.null_bytes_length then
      .error .corruptData
    else
      let nullStart := ttlOffset cfg
      let pos2 := ttlOffset cfg + cfg.null_bytes_length
      -- 5. empty request list: empty result
      if reqs.isEmpty then .ok ([], pos2)
      else if reqs.any (fun r => decide (fields.length ≤ r)) then .error .corruptData
      else
        decodeLoop value nullStart (0 < cfg.null_bytes_length) reqs
          ((fields.take (maxFieldIndex reqs + 1)).enum) pos2
          (List.replicate reqs.length [])

/-- `DecodeFieldFromValue` from the source: project the requested field
indices out of an encoded row value. -/
def DecodeFieldFromValue (cfg : TableConfig) (fields : List FieldInfo)
    (reqs : List Nat) (value : List Nat) : Except DbErr (List (List Nat)) :=
  (DecodeFieldFromValueAux cfg fields reqs value).map Prod.fst

/-! ## Math oracle and distance kernels -/

/-- Oracle for the real-number kernels the source gets from `<cmath>` and for
the IEEE-754 bit-level reading of an 8-byte little-endian double
(`memcpy` / `reinterpret_cast<const double*>`), which have no exact
shallow embedding. -/
structure MathOracle where
  sin : ℚ → ℚ
  cos : ℚ → ℚ
  atan2 : ℚ → ℚ → ℚ
  sqrt : ℚ → ℚ
  pi : ℚ
  interpDouble : List Nat → ℚ

/-- `st_distance_simple` from the source: haversine great-circle distance in
metres with mean Earth radius `R = 6 371 008.8 m`. -/
def st_distance_simple (o : MathOracle) (lon1 lat1 lon2 lat2 : ℚ) : ℚ :=
  let R : ℚ := 63710088 / 10
  let deg2rad : ℚ → ℚ := fun d => d * o.pi / 180
  let lat1r := deg2rad lat1
  let lat2r := deg2rad lat2
  let dlat := deg2rad (lat2 - lat1)
  let dlon := deg2rad (lon2 - lon1)
  let sin_dlat := o.sin (dlat * (1 / 2))
  let sin_dlon := o.sin (dlon * (1 / 2))
  let a := sin_dlat * sin_dlat + o.cos lat1r * o.cos lat2r * sin_dlon * sin_dlon
  let c := 2 * o.atan2 (o.sqrt a) (o.sqrt (1 - a))
  R * c

/-- Modelled from the spec: `faiss::fvec_L2sqr(a, b, d)` — the library (not in
this repository) computes the exact squared L2 distance over the first `d`
components, which is how the spec describes the distance ("squared L2
distance (exact, not approximate)"). -/
def fvec_L2sqr (a b : List ℚ) (d : Nat) : ℚ :=
  ((List.range d).map (fun i => (a.getD i 0 - b.getD i 0) ^ 2)).sum

/-! ## JSON-binary typed-array decoder (`ExtractVectorFromJson`) -/

/-- Interpret `n` (a raw little-endian group of 16 bits) as `int16_t`. -/
def asInt16 (n : Nat) : Int :=
  if n % 2 ^ 16 < 2 ^ 15 then (n % 2 ^ 16 : Nat) else (n % 2 ^ 16 : Nat) - 2 ^ 16

/-- Interpret `n` (raw 32 bits) as `int32_t`. -/
def asInt32 (n : Nat) : Int :=
  if n % 2 ^ 32 < 2 ^ 31 then (n % 2 ^ 32 : Nat) else (n % 2 ^ 32 : Nat) - 2 ^ 32

/-- Interpret `n` (raw 64 bits) as `int64_t`. -/
def asInt64 (n : Nat) : Int :=
  if n % 2 ^ 64 < 2 ^ 63 then (n % 2 ^ 64 : Nat) else (n % 2 ^ 64 : Nat) - 2 ^ 64

/-- The byte indices `data[start] .. data[start+n-1]` touched by a raw read. -/
def readIdxs (start n : Nat) : List Nat := (List.range n).map (start + ·)

/-- The `switch (value_type)` of `ExtractVectorFromJson<float>`, i.e. the
instantiation the engine actually uses: decode one value entry to a
rational, also reporting the byte indices it reads from the container.
Unsupported types for `T = float` are `CorruptData`: `0x0C` strings,
anything outside `0x04`-`0x0C`, and also the `0x04` literal, because `float`
is neither `bool` nor an integral type. -/
def decodeJsonValue (o : MathOracle) (bytes : List Nat) (inlined : Bool)
    (value_type value_offset : Nat) : Except DbErr ℚ × List Nat :=
  let length := bytes.length
  if value_type = 0x04 then
    -- literal: the engine instantiates T = float, which is neither bool nor
    -- an integral type, so the literal case falls through to CorruptData
    (.error .corruptData, [])
  else if value_type = 0x05 then
    (.ok ((asInt16 value_offset : ℚ)), [])
  else if value_type = 0x06 then
    (.ok ((value_offset % 2 ^ 16 : Nat) : ℚ), [])
  else if value_type = 0x07 then
    if inlined then
      (.ok ((asInt32 value_offset : ℚ)), [])
    else
      (.ok ((asInt32 (readLE bytes value_offset 4) : ℚ)), readIdxs value_offset 4)
  else if value_type = 0x08 then
    if inlined then
      (.ok ((value_offset % 2 ^ 32 : Nat) : ℚ), [])
    else
      (.ok ((readLE bytes value_offset 4 : Nat) : ℚ), readIdxs value_offset 4)
  else if value_type = 0x09 then
    if value_offset + 8 > length then (.error .corruptData, [])
    else (.ok ((asInt64 (readLE bytes value_offset 8) : ℚ)), readIdxs value_offset 8)
  else if value_type = 0x0A then
    if value_offset + 8 > length then (.error .corruptData, [])
    else (.ok ((readLE bytes value_offset 8 : Nat) : ℚ), readIdxs value_offset 8)
  else if value_type = 0x0B then
    if value_offset + 8 > length then (.error .corruptData, [])
    else (.ok (o.interpDouble ((bytes.drop value_offset).take 8)),
          readIdxs value_offset 8)
  else
    -- 0x0C strings and unknown types: CorruptData for arithmetic T
    (.error .corruptData, [])

/-- The per-element loop of `ExtractVectorFromJson`: `count` entries left,
current entry index `i`. -/
def jsonLoop (o : MathOracle) (bytes : List Nat) (large : Bool)
    (offSize entriesStart : Nat) :
    Nat → Nat → List ℚ → List Nat → Except DbErr (List ℚ) × List Nat
  | 0, _, acc, reads => (.ok acc, reads)
  | count + 1, i, acc, reads =>
    let length := bytes.length
    let value_entry_size := 1 + offSize
    let entry_pos := entriesStart + i * value_entry_size
    if entry_pos + value_entry_size > length then (.error .corruptData, reads)
    else
      let value_type := bytes.getD entry_pos 0
      let inlined := value_type = 0x04 ∨ value_type = 0x05 ∨ value_type = 0x06 ∨
        (value_type = 0x07 ∧ large) ∨ (value_type = 0x08 ∧ large)
      let rawOffset := readLE bytes (entry_pos + 1) offSize
      let reads := reads ++ readIdxs entry_pos (1 + offSize)
      if inlined then
        match decodeJsonValue o bytes true value_type rawOffset with
        | (.error e, rs) => (.error e, reads ++ rs)
        | (.ok v, rs) =>
          jsonLoop o bytes large offSize entriesStart count (i + 1)
            (acc ++ [v]) (reads ++ rs)
      else
        -- offsets are measured from 1 byte before the container
        let value_offset := rawOffset + 1
        if value_offset ≥ length then (.error .corruptData, reads)
        else
          match decodeJsonValue o bytes false value_type value_offset with
          | (.error e, rs) => (.error e, reads ++ rs)
          | (.ok v, rs) =>
            jsonLoop o bytes large offSize entriesStart count (i + 1)
              (acc ++ [v]) (reads ++ rs)

/-- `ExtractVectorFromJson<float>` from the source, instrumented with the
list of byte indices it reads from the container (`.2`); the decode result
is `.1`. -/
def ExtractVectorFromJson (o : MathOracle) (bytes : List Nat) :
    Except DbErr (List ℚ) × List Nat :=
  if bytes.length < 1 then (.error .corruptData, [])
  else
    let jtype := bytes.getD 0 0
    if jtype ≠ 0x02 ∧ jtype ≠ 0x03 then (.error .corruptData, [0])
    else
      let large := jtype = 0x03
      let offSize := if large then 4 else 2
      if bytes.length < 1 + 2 * offSize then (.error .corruptData, [0])
      else
        let element_count := readLE bytes 1 offSize
        let header_size := 1 + 2 * offSize
        jsonLoop o bytes large offSize header_size element_count 0 []
          (0 :: readIdxs 1 offSize)

/-! ## Bounded top-k heap

`std::priority_queue<PqElement, vector, cmp>` with
`cmp(a,b) = a.first < b.first` is a max-heap on the score.  We model it as a
list kept sorted by non-increasing score: `top()` is the head, `pop()` the
tail; the drain-then-reverse of the source yields the ascending result. -/

/-- Push one element into the score-sorted (non-increasing) heap list. -/
def heapPush {α : Type} (x : ℚ × α) : List (ℚ × α) → List (ℚ × α)
  | [] => [x]
  | y :: t => if x.1 ≤ y.1 then y :: heapPush x t else x :: y :: t

/-- The literal heap-update block repeated in every scan loop of the source:
`if (top_k_heap.size() < k) push(score, v); else if (evictScore <
top_k_heap.top().first) { pop(); push(score2, v); }`.  `score` is the key
used when pushing below capacity, `evictScore`/`score2` the comparison and
insertion keys of the evict branch (in the source both equal `distance`). -/
def heapEvictStep {α : Type} (k : Nat) (score evictScore score2 : ℚ) (v : α)
    (heap : List (ℚ × α)) : List (ℚ × α) :=
  if heap.length < k then heapPush (score, v) heap
  else
    match heap with
    | [] => heap
    | top :: ht => if evictScore < top.1 then heapPush (score2, v) ht else heap

/-- A row yielded by the KV-store iterator: its key and value bytes. -/
structure LsmRow where
  key : List Nat
  value : List Nat
  deriving DecidableEq, Repr

/-- Result row of the `*_with_value` entry points:
`(primary key, (score, row value))`. -/
abbrev ResRow := List Nat × ℚ × List Nat

/-- Drain loop of the source (`while !empty: emplace(top...); pop`) followed
by `std::reverse`. -/
def drainReverse (heap : List (ℚ × List Nat × List Nat)) : List ResRow :=
  (heap.map (fun e => (e.2.1, e.1, e.2.2))).reverse

/-- The per-row loop shared verbatim by `knn_search_with_value` and
`index_scan_with_value`: count the row as scanned, skip it when its value is
empty, otherwise extract field 8, decode the vector, compute the L2 distance
and feed the bounded max-heap of size `k`. -/
def lsmGo (o : MathOracle) (cfg : TableConfig) (fields : List FieldInfo)
    (q : List ℚ) (k : Nat) (heap : List (ℚ × List Nat × List Nat))
    (scanned : Nat) : List LsmRow → Except DbErr (List ResRow × Nat)
  | [] => .ok (drainReverse heap, scanned)
  | row :: rest =>
    if row.value.length ≠ 0 then
      match DecodeFieldFromValue cfg fields [8] row.value with
      | .error _ => .error .corruptData
      | .ok index_fields =>
        match (ExtractVectorFromJson o (index_fields.getD 0 [])).1 with
        | .error _ => .error .corruptData
        | .ok vector_data =>
          let distance := fvec_L2sqr q vector_data q.length
          let heap2 := heapEvictStep k distance distance distance
            (row.key, row.value) heap
          lsmGo o cfg fields q k heap2 (scanned + 1) rest
    else lsmGo o cfg fields q k heap (scanned + 1) rest

/-- Metric tag of `FB_VECTOR_INDEX_METRIC`. -/
inductive Metric where
  | noMetric
  | l2
  | ip
  deriving DecidableEq, Repr

/-- `Rdb_vector_search_params`. -/
structure SearchParams where
  m_metric : Metric
  m_k : Nat
  m_nprobe : Nat
  m_weight : ℚ
  m_query_coordinate : List Nat
  deriving DecidableEq, Repr

/-- `Rdb_vector_index_lsm::knn_search_with_value`.  The rows are the stream
yielded by the KV store's distance-aware iterator; `killed` is the session's
kill flag (`thd->killed`), which — as in the source — this path never
consults.  The second component of the result is `keys_scanned`. -/
def knn_search_with_value (o : MathOracle) (cfg : TableConfig)
    (fields : List FieldInfo) (killed : Bool) (q : List ℚ)
    (params : SearchParams) (rows : List LsmRow) :
    Except DbErr (List ResRow × Nat) :=
  lsmGo o cfg fields q params.m_k [] 0 rows

/-- `Rdb_vector_index_lsm::index_scan_with_value`: identical loop with the
hard-coded `k = 100` ("default k value for index scan"). -/
def index_scan_with_value (o : MathOracle) (cfg : TableConfig)
    (fields : List FieldInfo) (killed : Bool) (q : List ℚ) (nprobe : Nat)
    (rows : List LsmRow) : Except DbErr (List ResRow × Nat) :=
  lsmGo o cfg fields q 100 [] 0 rows

/-- The field-index discovery of `knn_search_hybrid_with_value`: the first
field of type `MYSQL_TYPE_GEOMETRY` (255) and the first of type
`MYSQL_TYPE_JSON` (245) are requested; `spatial_field_index` is 0 and
`vector_field_index` is 1 when a spatial field precedes, else 0.  (When a
type is absent the source leaves the corresponding index uninitialized; we
model it as 0, and no theorem depends on that case.) -/
def hybridFieldIdxs (fields : List FieldInfo) :
    List Nat × Nat × Nat :=
  let spatialReq : List Nat :=
    match fields.findIdx? (fun f => f.ftype = MYSQL_TYPE_GEOMETRY) with
    | some i => [i]
    | none => []
  match fields.findIdx? (fun f => f.ftype = MYSQL_TYPE_JSON) with
  | some i => (spatialReq ++ [i], 0, if spatialReq.isEmpty then 0 else 1)
  | none => (spatialReq, 0, 0)

/-- The per-row loop of `knn_search_hybrid_with_value`: both the spatial and
the vector field are projected; the spatial field's WKB point is read as
little-endian doubles at byte offsets 9 (lon) and 17 (lat); the
below-capacity branch pushes `distance + weight * distance_spatial`, while
the evict branch compares and pushes the bare vector `distance` — exactly as
the source does. -/
def lsmHybridGo (o : MathOracle) (cfg : TableConfig) (fields : List FieldInfo)
    (q : List ℚ) (k : Nat) (weight lonq latq : ℚ) (reqs : List Nat)
    (spatialPos vecPos : Nat) (heap : List (ℚ × List Nat × List Nat))
    (scanned : Nat) : List LsmRow → Except DbErr (List ResRow × Nat)
  | [] => .ok (drainReverse heap, scanned)
  | row :: rest =>
    if row.value.length ≠ 0 then
      match DecodeFieldFromValue cfg fields reqs row.value with
      | .error _ => .error .corruptData
      | .ok index_fields =>
        match (ExtractVectorFromJson o (index_fields.getD vecPos [])).1 with
        | .error _ => .error .corruptData
        | .ok vector_data =>
          let sp := index_fields.getD spatialPos []
          let lon := o.interpDouble ((sp.drop 9).take 8)
          let lat := o.interpDouble ((sp.drop 17).take 8)
          let distance_spatial := st_distance_simple o lonq latq lon lat
          let distance := fvec_L2sqr q vector_data q.length
          -- the below-capacity push is keyed on the combined score, but the
          -- evict branch compares and re-pushes the bare vector distance
          let heap2 := heapEvictStep k (distance + weight * distance_spatial)
            distance distance (row.key, row.value) heap
          lsmHybridGo o cfg fields q k weight lonq latq reqs spatialPos vecPos
            heap2 (scanned + 1) rest
    else
      lsmHybridGo o cfg fields q k weight lonq latq reqs spatialPos vecPos
        heap (scanned + 1) rest

/-- `Rdb_vector_index_lsm::knn_search_hybrid_with_value`. -/
def knn_search_hybrid_with_value (o : MathOracle) (cfg : TableConfig)
    (fields : List FieldInfo) (killed : Bool) (q : List ℚ)
    (params : SearchParams) (rows : List LsmRow) :
    Except DbErr (List ResRow × Nat) :=
  let fi := hybridFieldIdxs fields
  let lonq := o.interpDouble ((params.m_query_coordinate.drop 9).take 8)
  let latq := o.interpDouble ((params.m_query_coordinate.drop 17).take 8)
  lsmHybridGo o cfg fields q params.m_k params.m_weight lonq latq
    fi.1 fi.2.1 fi.2.2 [] 0 rows

/-! ## Search-session handler (`Rdb_vector_db_handler`)

The handler dispatches to the index object through a virtual call; the
embedding takes that call as the function argument `searchFn`. -/

/-- `Rdb_vector_db_handler::knn_search`: empty buffer or zero limit ends the
query; a buffer shorter than the index dimension is resized (zero-padded) to
the dimension; a longer buffer fails before any search. -/
def handler_knn_search {α : Type} (dim : Nat) (metric : Metric)
    (limit nprobe : Nat) (buffer : List ℚ)
    (searchFn : SearchParams → List ℚ → Except DbErr α) : Except DbErr α :=
  if buffer.length = 0 ∨ limit = 0 then .error .endOfFile
  else if buffer.length < dim then
    searchFn ⟨metric, limit, nprobe, 0, []⟩
      (buffer ++ List.replicate (dim - buffer.length) 0)
  else if dim < buffer.length then .error .exitFailure
  else searchFn ⟨metric, limit, nprobe, 0, []⟩ buffer

/-- `Rdb_vector_db_handler::knn_search_hybrid`: same buffer handling, but the
search parameter `m_k` is `m_limit * 5`. -/
def handler_knn_search_hybrid {α : Type} (dim : Nat) (metric : Metric)
    (limit nprobe : Nat) (weight : ℚ) (qcoord : List Nat) (buffer : List ℚ)
    (searchFn : SearchParams → List ℚ → Except DbErr α) : Except DbErr α :=
  if buffer.length = 0 ∨ limit = 0 then .error .endOfFile
  else if buffer.length < dim then
    searchFn ⟨metric, limit * 5, nprobe, weight, qcoord⟩
      (buffer ++ List.replicate (dim - buffer.length) 0)
  else if dim < buffer.length then .error .exitFailure
  else searchFn ⟨metric, limit * 5, nprobe, weight, qcoord⟩ buffer

/-! ## Key codec and inverted-list iterator (IVF side) -/

/-- `write_inverted_list_key`: `BE32(index_id) ++ BE64(list_id)`. -/
def write_inverted_list_key (index_id list_id : Nat) : List Nat :=
  writeBE index_id 4 ++ writeBE list_id 8

/-- `read_inverted_list_key`: read and verify the 4-byte index id and the
8-byte list id; on success return the remaining bytes (the pk suffix). -/
def read_inverted_list_key (index_id list_id : Nat) (key : List Nat) :
    Except DbErr (List Nat) :=
  if key.length < 4 then .error .corruptData
  else if readBE key 0 4 ≠ index_id then .error .corruptData
  else if key.length < 12 then .error .corruptData
  else if readBE key 4 8 ≠ list_id then .error .corruptData
  else .ok (key.drop 12)

/-- One KV record visited by `Rdb_vector_iterator`. -/
structure IvfEntry where
  key : List Nat
  value : List Nat
  deriving DecidableEq, Repr

/-- `Rdb_vector_iterator::get_key_and_codes`, parameterized by the external
`Rdb_key_def::is_unpack_data_tag` / `get_unpack_header_size` helpers: verify
the key, require a non-empty pk suffix, and slice the fixed-size codes out of
the value (validating the optional unpack-header tag). -/
def get_key_and_codes (isTag : Nat → Bool) (hdrSize : Nat → Nat)
    (index_id list_id code_size : Nat) (e : IvfEntry) :
    Except DbErr (List Nat × List Nat) :=
  match read_inverted_list_key index_id list_id e.key with
  | .error err => .error err
  | .ok pk =>
    if pk.length = 0 then .error .corruptData
    else
      let codes := e.value
      let extra_bytes : Int := (codes.length : Int) - (code_size : Int)
      if extra_bytes < 0 then .error .corruptData
      else if 0 < extra_bytes then
        let tag := codes.getD 0 0
        if ¬ isTag tag then .error .corruptData
        else
          let header_size := hdrSize tag
          if extra_bytes.toNat < header_size then .error .corruptData
          else .ok (e.key, (codes.drop header_size).take code_size)
      else .ok (e.key, codes)

/-- `Rdb_vector_iterator::get_key_and_value` (with `need_value = true`):
verify the key and non-empty pk, then rebuild the value minus the vector
codes.  `value_bytes` is `size_t` arithmetic, so the subtraction wraps modulo
2^64 and the source's `value_bytes < 0` test never fires. -/
def get_key_and_value (isTag : Nat → Bool) (hdrSize : Nat → Nat)
    (index_id list_id code_size : Nat) (e : IvfEntry) :
    Except DbErr (List Nat × List Nat) :=
  match read_inverted_list_key index_id list_id e.key with
  | .error err => .error err
  | .ok pk =>
    if pk.length = 0 then .error .corruptData
    else
      let value_bytes := (e.value.length + 2 ^ 64 - code_size) % 2 ^ 64
      if value_bytes < 0 then .error .corruptData
      else if 0 < value_bytes then
        let tag := e.value.getD 0 0
        if ¬ isTag tag then .error .corruptData
        else
          let header_size := hdrSize tag
          if value_bytes < header_size then .error .corruptData
          else
            .ok (e.key, (e.value.take header_size) ++
              ((List.range (value_bytes - header_size)).map
                (fun i => e.value.getD (header_size + i + code_size) 0)))
      else .ok (e.key, [])

/-- One inverted list of the IVF search: its list id and the KV records in
its key range. -/
structure IvfList where
  list_id : Nat
  entries : List IvfEntry
  deriving DecidableEq, Repr

/-- Scan one inverted list through `Rdb_vector_iterator`: `is_available`
checks the kill flag while a record is pending (recording
`HA_ERR_QUERY_INTERRUPTED`), then `get_id_and_codes` decodes the record (any
failure is recorded in the context and stops the iteration). -/
def scanInvertedList (isTag : Nat → Bool) (hdrSize : Nat → Nat) (killed : Bool)
    (index_id list_id code_size : Nat) :
    List IvfEntry → Except DbErr (List (List Nat × List Nat))
  | [] => .ok []
  | e :: rest =>
    if killed then .error .interrupted
    else
      match get_key_and_codes isTag hdrSize index_id list_id code_size e with
      | .error err => .error err
      | .ok kc =>
        match scanInvertedList isTag hdrSize killed index_id list_id code_size
            rest with
        | .error err => .error err
        | .ok tail => .ok (kc :: tail)

/-- Stream all probed inverted lists in order through `Rdb_vector_iterator`;
the first error recorded in the context stops the whole search. -/
def scanProbedLists (isTag : Nat → Bool) (hdrSize : Nat → Nat) (killed : Bool)
    (index_id code_size : Nat) :
    List IvfList → Except DbErr (List (List Nat × List Nat))
  | [] => .ok []
  | l :: rest =>
    match scanInvertedList isTag hdrSize killed index_id l.list_id code_size
        l.entries with
    | .error err => .error err
    | .ok recs =>
      match scanProbedLists isTag hdrSize killed index_id code_size rest with
      | .error err => .error err
      | .ok tailRecs => .ok (recs ++ tailRecs)

/-- One heap step of the k-NN ranking: push while below capacity, otherwise
pop-and-push when strictly closer (spec §4.5 step 3). -/
def ivfHeapStep (adc : List Nat → ℚ) (k : Nat)
    (heap : List (ℚ × List Nat × List Nat)) (r : List Nat × List Nat) :
    List (ℚ × List Nat × List Nat) :=
  let d := adc r.2
  heapEvictStep k d d d r heap

/-- Modelled from the spec: `Rdb_vector_index_ivf::knn_search` drives
`faiss::IndexIVF::search` (an external library), which streams every probed
inverted list through `Rdb_vector_iterator` (embedded above from the source)
and ranks the records in a bounded max-heap of size `k`, scored by the
asymmetric distance computer `adc` (abstracted); if the iteration context
records an error the search returns it and populates no result rows
(spec §4.5, §4.4).  Result rows are `(pk, score)` ascending. -/
def ivf_knn_search (isTag : Nat → Bool) (hdrSize : Nat → Nat)
    (adc : List Nat → ℚ) (killed : Bool) (index_id code_size k : Nat)
    (lists : List IvfList) : Except DbErr (List (List Nat × ℚ)) :=
  match scanProbedLists isTag hdrSize killed index_id code_size lists with
  | .error err => .error err
  | .ok recs =>
    .ok (((recs.foldl (ivfHeapStep adc k) []).map
      (fun e => (e.2.1, e.1))).reverse)

/-- A concrete math oracle (the structural theorems hold for every oracle;
witnesses fix one). -/
def oZero : MathOracle :=
  ⟨fun _ => 0, fun _ => 0, fun _ _ => 1, fun _ => 0, 0, fun _ => 0⟩

/-- Layout with no TTL and no null bitmap. -/
def cfgPlain : TableConfig := ⟨false, 0⟩

/-- A minimal JSON-binary array `[v]`: small array, one inlined int16. -/
def exJson (v : Nat) : List Nat := [2, 1, 0, 0, 0, 5, v, 0]

/-- Hybrid layout: a geometry field then a JSON vector field. -/
def exFieldsHybrid : List FieldInfo :=
  [⟨MYSQL_TYPE_GEOMETRY, false, 1, 0⟩, ⟨MYSQL_TYPE_JSON, false, 1, 0⟩]

/-- Row value for the hybrid layout: empty geometry, then the vector. -/
def exRowHybrid (v : Nat) : List Nat := [0, 8] ++ exJson v

/-- Plain-scan layout: the vector field must sit at the hard-coded field
index 8, preceded by eight zero-width fixed fields. -/
def exFieldsPlain : List FieldInfo :=
  List.replicate 8 ⟨3, false, 0, 0⟩ ++ [⟨MYSQL_TYPE_JSON, false, 1, 0⟩]

/-- Row value for the plain-scan layout. -/
def exRowPlain (v : Nat) : List Nat := [8] ++ exJson v

/-- A concrete unpack-data-tag oracle: tag byte 0 with a 1-byte header. -/
def exTag : Nat → Bool := fun t => t = 0

def exHdr : Nat → Nat := fun _ => 1

/-- Layout with one nullable fixed field and a 1-byte null bitmap. -/
def cfgNull : TableConfig := ⟨false, 1⟩

def exFieldsNull : List FieldInfo := [⟨3, true, 0, 4⟩]

/-- The heap list invariant: scores non-increasing from the top. -/
def SortedDesc {α : Type} (h : List (ℚ × α)) : Prop :=
  h.Pairwise (fun a b => b.1 ≤ a.1)

theorem heapPush_length {α : Type} (x : ℚ × α) (h : List (ℚ × α)) :
    (heapPush x h).length = h.length + 1 := by
  induction h with
  | nil => rfl
  | cons y t ih =>
    simp only [heapPush]
    split
    · simp [ih]
    · simp

theorem mem_heapPush {α : Type} {x y : ℚ × α} {h : List (ℚ × α)} :
    y ∈ heapPush x h ↔ y = x ∨ y ∈ h := by
  induction h with
  | nil => simp [heapPush]
  | cons z t ih =>
    simp only [heapPush]
    split
    · simp only [List.mem_cons, ih]
      try tauto
    · simp only [List.mem_cons]
      try tauto

theorem heapPush_sorted {α : Type} {x : ℚ × α} {h : List (ℚ × α)}
    (hs : SortedDesc h) : SortedDesc (heapPush x h) := by
  induction h with
  | nil => simp [heapPush, SortedDesc]
  | cons y t ih =>
    rw [SortedDesc, List.pairwise_cons] at hs
    simp only [heapPush]
    split
    · rename_i hle
      rw [SortedDesc, List.pairwise_cons]
      refine ⟨fun z hz => ?_, ih hs.2⟩
      rcases mem_heapPush.mp hz with rfl | hz
      · exact hle
      · exact hs.1 z hz
    · rename_i hlt
      push_neg at hlt
      rw [SortedDesc, List.pairwise_cons]
      refine ⟨fun z hz => ?_, ?_⟩
      · rcases List.mem_cons.mp hz with rfl | hz
        · exact le_of_lt hlt
        · exact le_trans (hs.1 z hz) (le_of_lt hlt)
      · rw [List.pairwise_cons]
        exact ⟨hs.1, hs.2⟩

theorem sortedDesc_tail {α : Type} {y : ℚ × α} {t : List (ℚ × α)}
    (hs : SortedDesc (y :: t)) : SortedDesc t :=
  (List.pairwise_cons.mp hs).2

/-- The drained-and-reversed result of a sorted heap is ascending in score. -/
theorem drainReverse_sorted {heap : List (ℚ × List Nat × List Nat)}
    (hs : SortedDesc heap) :
    (drainReverse heap).Pairwise (fun a b : ResRow => a.2.1 ≤ b.2.1) := by
  rw [drainReverse, List.pairwise_reverse, List.pairwise_map]
  exact hs.imp (fun hba => hba)

theorem heapEvictStep_sorted {α : Type} {k : Nat} {s e s2 : ℚ} {v : α}
    {heap : List (ℚ × α)} (hs : SortedDesc heap) :
    SortedDesc (heapEvictStep k s e s2 v heap) := by
  rw [heapEvictStep.eq_def]
  split
  · exact heapPush_sorted hs
  · match heap with
    | [] => exact hs
    | top :: ht =>
      simp only
      split
      · exact heapPush_sorted (sortedDesc_tail hs)
      · exact hs

theorem heapEvictStep_nil {α : Type} (k : Nat) (s e s2 : ℚ) (v : α) :
    heapEvictStep k s e s2 v [] = if 0 < k then [(s, v)] else [] := by
  rw [heapEvictStep.eq_def]
  simp [heapPush]

theorem heapEvictStep_cons {α : Type} (k : Nat) (s e s2 : ℚ) (v : α)
    (top : ℚ × α) (ht : List (ℚ × α)) :
    heapEvictStep k s e s2 v (top :: ht) =
      if ht.length + 1 < k then heapPush (s, v) (top :: ht)
      else if e < top.1 then heapPush (s2, v) ht else top :: ht := by
  rw [heapEvictStep.eq_def]
  simp

theorem heapEvictStep_length {α : Type} {k m : Nat} {s e s2 : ℚ} {v : α}
    {heap : List (ℚ × α)} (hl : heap.length = min k m) :
    (heapEvictStep k s e s2 v heap).length = min k (m + 1) := by
  cases heap with
  | nil =>
    simp only [List.length_nil] at hl
    rw [heapEvictStep_nil]
    split
    · simp only [List.length_cons, List.length_nil]
      omega
    · simp only [List.length_nil]
      omega
  | cons top ht =>
    simp only [List.length_cons] at hl
    rw [heapEvictStep_cons]
    split
    · rw [heapPush_length]
      simp only [List.length_cons]
      omega
    · split
      · rw [heapPush_length]
        omega
      · simp only [List.length_cons]
        omega

/-- Number of rows the scan treats as matched: nonempty value. -/
def matchedCount (rows : List LsmRow) : Nat :=
  (rows.filter (fun r => decide (r.value.length ≠ 0))).length

theorem lsmGo_sorted (o : MathOracle) (cfg : TableConfig)
    (fields : List FieldInfo) (q : List ℚ) (k : Nat) :
    ∀ (rows : List LsmRow) (heap : List (ℚ × List Nat × List Nat))
      (scanned : Nat) (res : List ResRow) (n : Nat), SortedDesc heap →
      lsmGo o cfg fields q k heap scanned rows = .ok (res, n) →
      res.Pairwise (fun a b : ResRow => a.2.1 ≤ b.2.1) := by
  intro rows
  induction rows with
  | nil =>
    intro heap scanned res n hs h
    rw [lsmGo] at h
    injection h with h
    injection h with h1 h2
    rw [← h1]
    exact drainReverse_sorted hs
  | cons row rest ih =>
    intro heap scanned res n hs h
    rw [lsmGo] at h
    split at h
    · split at h
      · exact absurd h (by simp)
      · split at h
        · exact absurd h (by simp)
        · exact ih _ _ _ _ (heapEvictStep_sorted hs) h
    · exact ih _ _ _ _ hs h

theorem lsmGo_length (o : MathOracle) (cfg : TableConfig)
    (fields : List FieldInfo) (q : List ℚ) (k : Nat) :
    ∀ (rows : List LsmRow) (heap : List (ℚ × List Nat × List Nat))
      (scanned m : Nat) (res : List ResRow) (n : Nat),
      heap.length = min k m →
      lsmGo o cfg fields q k heap scanned rows = .ok (res, n) →
      res.length = min k (m + matchedCount rows) := by
  intro rows
  induction rows with
  | nil =>
    intro heap scanned m res n hl h
    rw [lsmGo] at h
    injection h with h
    injection h with h1 h2
    rw [← h1]
    simp [drainReverse, matchedCount, hl]
  | cons row rest ih =>
    intro heap scanned m res n hl h
    rw [lsmGo] at h
    split at h
    · rename_i hne
      split at h
      · exact absurd h (by simp)
      · split at h
        · exact absurd h (by simp)
        · have := ih _ _ (m + 1) _ _ (heapEvictStep_length hl) h
          rw [this]
          have : matchedCount (row :: rest) = matchedCount rest + 1 := by
            simp [matchedCount, List.filter, hne]
          omega
    · rename_i hemp
      have := ih _ _ m _ _ hl h
      rw [this]
      have : matchedCount (row :: rest) = matchedCount rest := by
        simp only [Decidable.not_not] at hemp
        simp [matchedCount, List.filter, hemp]
      omega

theorem lsmGo_scanned_shift (o : MathOracle) (cfg : TableConfig)
    (fields : List FieldInfo) (q : List ℚ) (k : Nat) :
    ∀ (rows : List LsmRow) (heap : List (ℚ × List Nat × List Nat))
      (s : Nat),
      lsmGo o cfg fields q k heap (s + 1) rows =
        (lsmGo o cfg fields q k heap s rows).map (fun r => (r.1, r.2 + 1)) := by
  intro rows
  induction rows with
  | nil => intro heap s; rw [lsmGo, lsmGo]; rfl
  | cons row rest ih =>
    intro heap s
    rw [lsmGo]
    conv_rhs => rw [lsmGo]
    split
    · split
      · rfl
      · split
        · rfl
        · exact ih _ _
    · exact ih _ _

theorem lsmGo_skip_empty (o : MathOracle) (cfg : TableConfig)
    (fields : List FieldInfo) (q : List ℚ) (k : Nat) :
    ∀ (pre : List LsmRow) (key : List Nat) (post : List LsmRow)
      (heap : List (ℚ × List Nat × List Nat)) (s : Nat),
      lsmGo o cfg fields q k heap s (pre ++ ⟨key, []⟩ :: post) =
        (lsmGo o cfg fields q k heap s (pre ++ post)).map
          (fun r => (r.1, r.2 + 1)) := by
  intro pre
  induction pre with
  | nil =>
    intro key post heap s
    simp only [List.nil_append]
    conv_lhs => rw [lsmGo]
    simp only [List.length_nil, ne_eq, not_true_eq_false, reduceIte,
      Decidable.not_not]
    exact lsmGo_scanned_shift o cfg fields q k post heap s
  | cons p pre ih =>
    intro key post heap s
    simp only [List.cons_append]
    rw [lsmGo]
    conv_rhs => rw [lsmGo]
    split
    · split
      · rfl
      · split
        · rfl
        · exact ih _ _ _ _
    · exact ih _ _ _ _

theorem lsmHybridGo_sorted (o : MathOracle) (cfg : TableConfig)
    (fields : List FieldInfo) (q : List ℚ) (k : Nat) (weight lonq latq : ℚ)
    (reqs : List Nat) (spatialPos vecPos : Nat) :
    ∀ (rows : List LsmRow) (heap : List (ℚ × List Nat × List Nat))
      (scanned : Nat) (res : List ResRow) (n : Nat), SortedDesc heap →
      lsmHybridGo o cfg fields q k weight lonq latq reqs spatialPos vecPos
        heap scanned rows = .ok (res, n) →
      res.Pairwise (fun a b : ResRow => a.2.1 ≤ b.2.1) := by
  intro rows
  induction rows with
  | nil =>
    intro heap scanned res n hs h
    rw [lsmHybridGo] at h
    injection h with h
    injection h with h1 h2
    rw [← h1]
    exact drainReverse_sorted hs
  | cons row rest ih =>
    intro heap scanned res n hs h
    rw [lsmHybridGo] at h
    split at h
    · split at h
      · exact absurd h (by simp)
      · split at h
        · exact absurd h (by simp)
        · exact ih _ _ _ _ (heapEvictStep_sorted hs) h
    · exact ih _ _ _ _ hs h

theorem lsmHybridGo_length (o : MathOracle) (cfg : TableConfig)
    (fields : List FieldInfo) (q : List ℚ) (k : Nat) (weight lonq latq : ℚ)
    (reqs : List Nat) (spatialPos vecPos : Nat) :
    ∀ (rows : List LsmRow) (heap : List (ℚ × List Nat × List Nat))
      (scanned m : Nat) (res : List ResRow) (n : Nat),
      heap.length = min k m →
      lsmHybridGo o cfg fields q k weight lonq latq reqs spatialPos vecPos
        heap scanned rows = .ok (res, n) →
      res.length = min k (m + matchedCount rows) := by
  intro rows
  induction rows with
  | nil =>
    intro heap scanned m res n hl h
    rw [lsmHybridGo] at h
    injection h with h
    injection h with h1 h2
    rw [← h1]
    simp [drainReverse, matchedCount, hl]
  | cons row rest ih =>
    intro heap scanned m res n hl h
    rw [lsmHybridGo] at h
    split at h
    · rename_i hne
      split at h
      · exact absurd h (by simp)
      · split at h
        · exact absurd h (by simp)
        · have := ih _ _ (m + 1) _ _ (heapEvictStep_length hl) h
          rw [this]
          have : matchedCount (row :: rest) = matchedCount rest + 1 := by
            simp [matchedCount, List.filter, hne]
          omega
    · rename_i hemp
      have := ih _ _ m _ _ hl h
      rw [this]
      have : matchedCount (row :: rest) = matchedCount rest := by
        simp only [Decidable.not_not] at hemp
        simp [matchedCount, List.filter, hemp]
      omega

theorem lsmHybridGo_scanned_shift (o : MathOracle) (cfg : TableConfig)
    (fields : List FieldInfo) (q : List ℚ) (k : Nat) (weight lonq latq : ℚ)
    (reqs : List Nat) (spatialPos vecPos : Nat) :
    ∀ (rows : List LsmRow) (heap : List (ℚ × List Nat × List Nat)) (s : Nat),
      lsmHybridGo o cfg fields q k weight lonq latq reqs spatialPos vecPos
        heap (s + 1) rows =
      (lsmHybridGo o cfg fields q k weight lonq latq reqs spatialPos vecPos
        heap s rows).map (fun r => (r.1, r.2 + 1)) := by
  intro rows
  induction rows with
  | nil => intro heap s; rw [lsmHybridGo, lsmHybridGo]; rfl
  | cons row rest ih =>
    intro heap s
    rw [lsmHybridGo]
    conv_rhs => rw [lsmHybridGo]
    split
    · split
      · rfl
      · split
        · rfl
        · exact ih _ _
    · exact ih _ _

theorem lsmHybridGo_skip_empty (o : MathOracle) (cfg : TableConfig)
    (fields : List FieldInfo) (q : List ℚ) (k : Nat) (weight lonq latq : ℚ)
    (reqs : List Nat) (spatialPos vecPos : Nat) :
    ∀ (pre : List LsmRow) (key : List Nat) (post : List LsmRow)
      (heap : List (ℚ × List Nat × List Nat)) (s : Nat),
      lsmHybridGo o cfg fields q k weight lonq latq reqs spatialPos vecPos
        heap s (pre ++ ⟨key, []⟩ :: post) =
      (lsmHybridGo o cfg fields q k weight lonq latq reqs spatialPos vecPos
        heap s (pre ++ post)).map (fun r => (r.1, r.2 + 1)) := by
  intro pre
  induction pre with
  | nil =>
    intro key post heap s
    simp only [List.nil_append]
    conv_lhs => rw [lsmHybridGo]
    simp only [List.length_nil, ne_eq, not_true_eq_false, reduceIte,
      Decidable.not_not]
    exact lsmHybridGo_scanned_shift o cfg fields q k weight lonq latq reqs
      spatialPos vecPos post heap s
  | cons p pre ih =>
    intro key post heap s
    simp only [List.cons_append]
    rw [lsmHybridGo]
    conv_rhs => rw [lsmHybridGo]
    split
    · split
      · rfl
      · split
        · rfl
        · exact ih _ _ _ _
    · exact ih _ _ _ _

/-! ## Claim C3 -/

/-- Claim C3: for every k-NN query, the sequence of scores in the returned
result vector is monotonically non-decreasing — the bounded max-heap is
drained from largest to smallest and the drained vector is reversed, so for
`knn_search_with_value`, `knn_search_hybrid_with_value` and
`index_scan_with_value`, `result[i].score ≤ result[i+1].score` for every
adjacent pair. -/
theorem claim_C3 :
    (∀ (o : MathOracle) (cfg : TableConfig) (fields : List FieldInfo)
      (killed : Bool) (q : List ℚ) (params : SearchParams)
      (rows : List LsmRow) (res : List ResRow) (n : Nat),
      knn_search_with_value o cfg fields killed q params rows = .ok (res, n) →
      res.Chain' (fun a b : ResRow => a.2.1 ≤ b.2.1)) ∧
    (∀ (o : MathOracle) (cfg : TableConfig) (fields : List FieldInfo)
      (killed : Bool) (q : List ℚ) (params : SearchParams)
      (rows : List LsmRow) (res : List ResRow) (n : Nat),
      knn_search_hybrid_with_value o cfg fields killed q params rows =
        .ok (res, n) →
      res.Chain' (fun a b : ResRow => a.2.1 ≤ b.2.1)) ∧
    (∀ (o : MathOracle) (cfg : TableConfig) (fields : List FieldInfo)
      (killed : Bool) (q : List ℚ) (nprobe : Nat) (rows : List LsmRow)
      (res : List ResRow) (n : Nat),
      index_scan_with_value o cfg fields killed q nprobe rows = .ok (res, n) →
      res.Chain' (fun a b : ResRow => a.2.1 ≤ b.2.1)) := by
  refine ⟨fun o cfg fields killed q params rows res n h => ?_,
    fun o cfg fields killed q params rows res n h => ?_,
    fun o cfg fields killed q nprobe rows res n h => ?_⟩
  · exact (lsmGo_sorted o cfg fields q params.m_k rows [] 0 res n
      (List.Pairwise.nil) h).chain'
  · exact (lsmHybridGo_sorted o cfg fields q params.m_k params.m_weight _ _ _
      _ _ rows [] 0 res n (List.Pairwise.nil) h).chain'
  · exact (lsmGo_sorted o cfg fields q 100 rows [] 0 res n
      (List.Pairwise.nil) h).chain'

/-- Evaluation rule: one non-empty, decodable row of the plain scan loop. -/
theorem lsmGo_step_ok (o : MathOracle) (cfg : TableConfig)
    (fields : List FieldInfo) (q : List ℚ) (k : Nat)
    (heap : List (ℚ × List Nat × List Nat)) (scanned : Nat) (row : LsmRow)
    (rest : List LsmRow) (sl : List (List Nat)) (vec : List ℚ)
    (hne : row.value.length ≠ 0)
    (hd : DecodeFieldFromValue cfg fields [8] row.value = .ok sl)
    (he : (ExtractVectorFromJson o (sl.getD 0 [])).1 = .ok vec) :
    lsmGo o cfg fields q k heap scanned (row :: rest) =
      lsmGo o cfg fields q k
        (heapEvictStep k (fvec_L2sqr q vec q.length)
          (fvec_L2sqr q vec q.length) (fvec_L2sqr q vec q.length)
          (row.key, row.value) heap)
        (scanned + 1) rest := by
  rw [lsmGo, if_pos hne, hd]
  simp only [he]

/-- Evaluation rule: the empty stream ends the plain scan loop. -/
theorem lsmGo_nil (o : MathOracle) (cfg : TableConfig)
    (fields : List FieldInfo) (q : List ℚ) (k : Nat)
    (heap : List (ℚ × List Nat × List Nat)) (scanned : Nat) :
    lsmGo o cfg fields q k heap scanned [] =
      .ok (drainReverse heap, scanned) := by
  rw [lsmGo]

/-- Evaluation rule: one non-empty, decodable row of the hybrid scan loop. -/
theorem lsmHybridGo_step_ok (o : MathOracle) (cfg : TableConfig)
    (fields : List FieldInfo) (q : List ℚ) (k : Nat) (weight lonq latq : ℚ)
    (reqs : List Nat) (spatialPos vecPos : Nat)
    (heap : List (ℚ × List Nat × List Nat)) (scanned : Nat) (row : LsmRow)
    (rest : List LsmRow) (sl : List (List Nat)) (vec : List ℚ)
    (hne : row.value.length ≠ 0)
    (hd : DecodeFieldFromValue cfg fields reqs row.value = .ok sl)
    (he : (ExtractVectorFromJson o (sl.getD vecPos [])).1 = .ok vec) :
    lsmHybridGo o cfg fields q k weight lonq latq reqs spatialPos vecPos
        heap scanned (row :: rest) =
      lsmHybridGo o cfg fields q k weight lonq latq reqs spatialPos vecPos
        (heapEvictStep k
          (fvec_L2sqr q vec q.length + weight * st_distance_simple o lonq latq
            (o.interpDouble (((sl.getD spatialPos []).drop 9).take 8))
            (o.interpDouble (((sl.getD spatialPos []).drop 17).take 8)))
          (fvec_L2sqr q vec q.length) (fvec_L2sqr q vec q.length)
          (row.key, row.value) heap)
        (scanned + 1) rest := by
  rw [lsmHybridGo, if_pos hne, hd]
  simp only [he]

/-- Evaluation rule: the empty stream ends the hybrid scan loop. -/
theorem lsmHybridGo_nil (o : MathOracle) (cfg : TableConfig)
    (fields : List FieldInfo) (q : List ℚ) (k : Nat) (weight lonq latq : ℚ)
    (reqs : List Nat) (spatialPos vecPos : Nat)
    (heap : List (ℚ × List Nat × List Nat)) (scanned : Nat) :
    lsmHybridGo o cfg fields q k weight lonq latq reqs spatialPos vecPos
      heap scanned [] = .ok (drainReverse heap, scanned) := by
  rw [lsmHybridGo]

/-- The concrete three-row plain scan used by several witnesses. -/
theorem exPlainRun :
    knn_search_with_value oZero cfgPlain exFieldsPlain false [0]
      ⟨.l2, 2, 1, 0, []⟩
      [⟨[1], exRowPlain 3⟩, ⟨[2], exRowPlain 1⟩, ⟨[3], exRowPlain 2⟩] =
    .ok ([([2], (1 : ℚ), exRowPlain 1), ([3], (4 : ℚ), exRowPlain 2)], 3) := by
  have hd3 : DecodeFieldFromValue cfgPlain exFieldsPlain [8] (exRowPlain 3) =
      .ok [exJson 3] := by decide
  have hd1 : DecodeFieldFromValue cfgPlain exFieldsPlain [8] (exRowPlain 1) =
      .ok [exJson 1] := by decide
  have hd2 : DecodeFieldFromValue cfgPlain exFieldsPlain [8] (exRowPlain 2) =
      .ok [exJson 2] := by decide
  have he3 : (ExtractVectorFromJson oZero ([exJson 3].getD 0 [])).1 =
      .ok [(3 : ℚ)] := by decide
  have he1 : (ExtractVectorFromJson oZero ([exJson 1].getD 0 [])).1 =
      .ok [(1 : ℚ)] := by decide
  have he2 : (ExtractVectorFromJson oZero ([exJson 2].getD 0 [])).1 =
      .ok [(2 : ℚ)] := by decide
  have hf3 : fvec_L2sqr [0] [(3 : ℚ)] ([(0 : ℚ)].length) = 9 := by
    norm_num [fvec_L2sqr, List.range_succ]
  have hf1 : fvec_L2sqr [0] [(1 : ℚ)] ([(0 : ℚ)].length) = 1 := by
    norm_num [fvec_L2sqr, List.range_succ]
  have hf2 : fvec_L2sqr [0] [(2 : ℚ)] ([(0 : ℚ)].length) = 4 := by
    norm_num [fvec_L2sqr, List.range_succ]
  rw [knn_search_with_value,
    lsmGo_step_ok _ _ _ _ _ _ _ _ _ _ _ (by decide) hd3 he3,
    lsmGo_step_ok _ _ _ _ _ _ _ _ _ _ _ (by decide) hd1 he1,
    lsmGo_step_ok _ _ _ _ _ _ _ _ _ _ _ (by decide) hd2 he2,
    lsmGo_nil, hf3, hf1, hf2]
  norm_num [heapEvictStep_nil, heapEvictStep_cons, heapPush, drainReverse]

/-- Witness for C3 at a concrete three-row scan. -/
theorem claim_C3_witness :
    List.Chain' (fun a b : ResRow => a.2.1 ≤ b.2.1)
      [([2], (1 : ℚ), exRowPlain 1), ([3], (4 : ℚ), exRowPlain 2)] :=
  claim_C3.1 oZero cfgPlain exFieldsPlain false [0] ⟨.l2, 2, 1, 0, []⟩
    [⟨[1], exRowPlain 3⟩, ⟨[2], exRowPlain 1⟩, ⟨[3], exRowPlain 2⟩]
    [([2], (1 : ℚ), exRowPlain 1), ([3], (4 : ℚ), exRowPlain 2)] 3 exPlainRun

/-! ## Claim C10 -/

/-- Claim C10: in every LSM scan entry point, a yielded row whose value is
the empty byte string is silently skipped — the scan of
`pre ++ [⟨key, ""⟩] ++ post` returns exactly the result of the scan of
`pre ++ post`, with `keys_scanned` one higher, so the empty-value row is
never field-decoded, never scored, never enters the top-k heap and never
appears in the result, while still counting as scanned. -/
theorem claim_C10 :
    (∀ (o : MathOracle) (cfg : TableConfig) (fields : List FieldInfo)
      (killed : Bool) (q : List ℚ) (params : SearchParams)
      (pre : List LsmRow) (key : List Nat) (post : List LsmRow),
      knn_search_with_value o cfg fields killed q params
          (pre ++ ⟨key, []⟩ :: post) =
        (knn_search_with_value o cfg fields killed q params
          (pre ++ post)).map (fun r => (r.1, r.2 + 1))) ∧
    (∀ (o : MathOracle) (cfg : TableConfig) (fields : List FieldInfo)
      (killed : Bool) (q : List ℚ) (params : SearchParams)
      (pre : List LsmRow) (key : List Nat) (post : List LsmRow),
      knn_search_hybrid_with_value o cfg fields killed q params
          (pre ++ ⟨key, []⟩ :: post) =
        (knn_search_hybrid_with_value o cfg fields killed q params
          (pre ++ post)).map (fun r => (r.1, r.2 + 1))) ∧
    (∀ (o : MathOracle) (cfg : TableConfig) (fields : List FieldInfo)
      (killed : Bool) (q : List ℚ) (nprobe : Nat)
      (pre : List LsmRow) (key : List Nat) (post : List LsmRow),
      index_scan_with_value o cfg fields killed q nprobe
          (pre ++ ⟨key, []⟩ :: post) =
        (index_scan_with_value o cfg fields killed q nprobe
          (pre ++ post)).map (fun r => (r.1, r.2 + 1))) := by
  refine ⟨fun o cfg fields killed q params pre key post => ?_,
    fun o cfg fields killed q params pre key post => ?_,
    fun o cfg fields killed q nprobe pre key post => ?_⟩
  · exact lsmGo_skip_empty o cfg fields q params.m_k pre key post [] 0
  · exact lsmHybridGo_skip_empty o cfg fields q params.m_k params.m_weight
      _ _ _ _ _ pre key post [] 0
  · exact lsmGo_skip_empty o cfg fields q 100 pre key post [] 0

/-! ## Claim C2 -/

theorem oZero_interp (x : List Nat) : oZero.interpDouble x = 0 := rfl

/-- The concrete two-row hybrid query through the handler (limit 1). -/
theorem exHybridHandlerRun :
    handler_knn_search_hybrid 1 .l2 1 0 1 [] [0]
      (fun p buf => knn_search_hybrid_with_value oZero cfgPlain exFieldsHybrid
        false buf p [⟨[1], exRowHybrid 2⟩, ⟨[2], exRowHybrid 1⟩]) =
    .ok ([([2], (63710093 : ℚ) / 5, exRowHybrid 1),
          ([1], (63710108 : ℚ) / 5, exRowHybrid 2)], 2) := by
  have hfi : hybridFieldIdxs exFieldsHybrid = ([0, 1], 0, 1) := by decide
  have hd2 : DecodeFieldFromValue cfgPlain exFieldsHybrid [0, 1]
      (exRowHybrid 2) = .ok [[], exJson 2] := by decide
  have hd1 : DecodeFieldFromValue cfgPlain exFieldsHybrid [0, 1]
      (exRowHybrid 1) = .ok [[], exJson 1] := by decide
  have he2 : (ExtractVectorFromJson oZero ([[], exJson 2].getD 1 [])).1 =
      .ok [(2 : ℚ)] := by decide
  have he1 : (ExtractVectorFromJson oZero ([[], exJson 1].getD 1 [])).1 =
      .ok [(1 : ℚ)] := by decide
  have hst : st_distance_simple oZero 0 0 0 0 = 63710088 / 5 := by
    norm_num [st_distance_simple, oZero]
  have hf2 : fvec_L2sqr [0] [(2 : ℚ)] ([(0 : ℚ)].length) = 4 := by
    norm_num [fvec_L2sqr, List.range_succ]
  have hf1 : fvec_L2sqr [0] [(1 : ℚ)] ([(0 : ℚ)].length) = 1 := by
    norm_num [fvec_L2sqr, List.range_succ]
  rw [handler_knn_search_hybrid, if_neg (by norm_num), if_neg (by norm_num),
    if_neg (by norm_num)]
  rw [knn_search_hybrid_with_value]
  simp only [hfi, oZero_interp]
  rw [lsmHybridGo_step_ok _ _ _ _ _ _ _ _ _ _ _ _ _ _ _ _ _
      (by decide) hd2 he2,
    lsmHybridGo_step_ok _ _ _ _ _ _ _ _ _ _ _ _ _ _ _ _ _
      (by decide) hd1 he1,
    lsmHybridGo_nil]
  simp only [oZero_interp]
  rw [hst, hf2, hf1]
  norm_num [heapEvictStep_nil, heapEvictStep_cons, heapPush, drainReverse]

/-- Claim C2 counterexample: a hybrid query with limit `k = 1` over two
matching rows returns both rows to the caller — `k` is inflated to `5·k` for
the scan but the result is never trimmed back, so `|result| = 2 > k = 1`,
refuting `|result| ≤ k`. -/
theorem claim_C2_counterexample :
    handler_knn_search_hybrid 1 .l2 1 0 1 [] [0]
      (fun p buf => knn_search_hybrid_with_value oZero cfgPlain exFieldsHybrid
        false buf p [⟨[1], exRowHybrid 2⟩, ⟨[2], exRowHybrid 1⟩]) =
      .ok ([([2], (63710093 : ℚ) / 5, exRowHybrid 1),
            ([1], (63710108 : ℚ) / 5, exRowHybrid 2)], 2) ∧
    ¬ ([([2], (63710093 : ℚ) / 5, exRowHybrid 1),
        ([1], (63710108 : ℚ) / 5, exRowHybrid 2)].length ≤ 1) :=
  ⟨exHybridHandlerRun, by norm_num⟩

/-- Claim C2 (amended): for the plain k-NN path
`|result| = min(k, matched_rows)`; for the hybrid path `k` is inflated to
`5·k` for the duration of the scan and the result is *not* trimmed back — the
entire heap is drained into the result, so the caller receives
`min(5·k, matched_rows)` rows. -/
theorem claim_C2_amended_thm :
    (∀ (o : MathOracle) (cfg : TableConfig) (fields : List FieldInfo)
      (killed : Bool) (q : List ℚ) (params : SearchParams)
      (rows : List LsmRow) (res : List ResRow) (n : Nat),
      knn_search_with_value o cfg fields killed q params rows = .ok (res, n) →
      res.length = min params.m_k (matchedCount rows)) ∧
    (∀ (dim : Nat) (metric : Metric) (limit nprobe : Nat) (weight : ℚ)
      (qcoord : List Nat) (buffer : List ℚ) (o : MathOracle)
      (cfg : TableConfig) (fields : List FieldInfo) (killed : Bool)
      (rows : List LsmRow) (res : List ResRow) (n : Nat),
      handler_knn_search_hybrid dim metric limit nprobe weight qcoord buffer
        (fun p buf =>
          knn_search_hybrid_with_value o cfg fields killed buf p rows) =
        .ok (res, n) →
      res.length = min (limit * 5) (matchedCount rows)) := by
  constructor
  · intro o cfg fields killed q params rows res n h
    rw [knn_search_with_value] at h
    have := lsmGo_length o cfg fields q params.m_k rows [] 0 0 res n
      (by simp) h
    simpa using this
  · intro dim metric limit nprobe weight qcoord buffer o cfg fields killed
      rows res n h
    rw [handler_knn_search_hybrid] at h
    split at h
    · exact absurd h (by simp)
    · split at h
      · rw [knn_search_hybrid_with_value] at h
        have := lsmHybridGo_length o cfg fields _ _ _ _ _ _ _ _ rows [] 0 0
          res n (by simp) h
        simpa using this
      · split at h
        · exact absurd h (by simp)
        · rw [knn_search_hybrid_with_value] at h
          have := lsmHybridGo_length o cfg fields _ _ _ _ _ _ _ _ rows [] 0 0
            res n (by simp) h
          simpa using this

/-- Witness for the amended C2 at the concrete runs: the plain scan with
`k = 2` over three matching rows returns `min(2,3) = 2` rows; the hybrid
handler query with limit 1 over two matching rows returns
`min(5·1, 2) = 2` rows. -/
theorem claim_C2_amended_witness :
    ([([2], (1 : ℚ), exRowPlain 1), ([3], (4 : ℚ), exRowPlain 2)].length =
      min 2 (matchedCount [⟨[1], exRowPlain 3⟩, ⟨[2], exRowPlain 1⟩,
        ⟨[3], exRowPlain 2⟩])) ∧
    ([([2], (63710093 : ℚ) / 5, exRowHybrid 1),
      ([1], (63710108 : ℚ) / 5, exRowHybrid 2)].length =
      min (1 * 5) (matchedCount [⟨[1], exRowHybrid 2⟩, ⟨[2], exRowHybrid 1⟩])) :=
  ⟨claim_C2_amended_thm.1 oZero cfgPlain exFieldsPlain false [0]
      ⟨.l2, 2, 1, 0, []⟩ _ _ 3 exPlainRun,
    claim_C2_amended_thm.2 1 .l2 1 0 1 [] [0] oZero cfgPlain exFieldsHybrid
      false _ _ 2 exHybridHandlerRun⟩

/-! ## Claim C6 -/

/-- Claim C6: a query vector shorter than the index dimension is zero-padded
to exactly the dimension before searching — the handler's result equals the
result for the explicitly padded query — and a query vector longer than the
dimension is rejected (the source returns the generic failure code realising
the spec's OutOfRange kind) before the index search function is ever invoked
(the rejection holds for *every* search function), on both the plain and the
hybrid path. -/
theorem claim_C6 :
    (∀ (α : Type) (dim : Nat) (metric : Metric) (limit nprobe : Nat)
      (buffer : List ℚ) (searchFn : SearchParams → List ℚ → Except DbErr α),
      buffer.length ≠ 0 → limit ≠ 0 → buffer.length < dim →
      handler_knn_search dim metric limit nprobe buffer searchFn =
        handler_knn_search dim metric limit nprobe
          (buffer ++ List.replicate (dim - buffer.length) 0) searchFn) ∧
    (∀ (α : Type) (dim : Nat) (metric : Metric) (limit nprobe : Nat)
      (buffer : List ℚ) (searchFn : SearchParams → List ℚ → Except DbErr α),
      limit ≠ 0 → dim < buffer.length →
      handler_knn_search dim metric limit nprobe buffer searchFn =
        .error .exitFailure) ∧
    (∀ (α : Type) (dim : Nat) (metric : Metric) (limit nprobe : Nat)
      (weight : ℚ) (qcoord : List Nat) (buffer : List ℚ)
      (searchFn : SearchParams → List ℚ → Except DbErr α),
      buffer.length ≠ 0 → limit ≠ 0 → buffer.length < dim →
      handler_knn_search_hybrid dim metric limit nprobe weight qcoord buffer
          searchFn =
        handler_knn_search_hybrid dim metric limit nprobe weight qcoord
          (buffer ++ List.replicate (dim - buffer.length) 0) searchFn) ∧
    (∀ (α : Type) (dim : Nat) (metric : Metric) (limit nprobe : Nat)
      (weight : ℚ) (qcoord : List Nat) (buffer : List ℚ)
      (searchFn : SearchParams → List ℚ → Except DbErr α),
      limit ≠ 0 → dim < buffer.length →
      handler_knn_search_hybrid dim metric limit nprobe weight qcoord buffer
          searchFn =
        .error .exitFailure) := by
  refine ⟨fun α dim metric limit nprobe buffer searchFn hb hl hlt => ?_,
    fun α dim metric limit nprobe buffer searchFn hl hgt => ?_,
    fun α dim metric limit nprobe weight qcoord buffer searchFn hb hl hlt =>
      ?_,
    fun α dim metric limit nprobe weight qcoord buffer searchFn hl hgt => ?_⟩
  · have hpl : (buffer ++ List.replicate (dim - buffer.length) (0 : ℚ)).length
        = dim := by
      simp only [List.length_append, List.length_replicate]
      omega
    rw [handler_knn_search, handler_knn_search, hpl,
      if_neg (by omega : ¬ (buffer.length = 0 ∨ limit = 0)),
      if_pos hlt, if_neg (by omega : ¬ (dim = 0 ∨ limit = 0)),
      if_neg (by omega : ¬ (dim < dim)), if_neg (by omega : ¬ (dim < dim))]
  · rw [handler_knn_search,
      if_neg (by omega : ¬ (buffer.length = 0 ∨ limit = 0)),
      if_neg (by omega : ¬ (buffer.length < dim)), if_pos hgt]
  · have hpl : (buffer ++ List.replicate (dim - buffer.length) (0 : ℚ)).length
        = dim := by
      simp only [List.length_append, List.length_replicate]
      omega
    rw [handler_knn_search_hybrid, handler_knn_search_hybrid, hpl,
      if_neg (by omega : ¬ (buffer.length = 0 ∨ limit = 0)),
      if_pos hlt, if_neg (by omega : ¬ (dim = 0 ∨ limit = 0)),
      if_neg (by omega : ¬ (dim < dim)), if_neg (by omega : ¬ (dim < dim))]
  · rw [handler_knn_search_hybrid,
      if_neg (by omega : ¬ (buffer.length = 0 ∨ limit = 0)),
      if_neg (by omega : ¬ (buffer.length < dim)), if_pos hgt]

/-- Witness for C6: a 1-element query against dimension 2 equals the padded
query `[5, 0]`; a 3-element query against dimension 2 is rejected for every
search function (instantiated with one that returns its input's length). -/
theorem claim_C6_witness :
    (handler_knn_search 2 .l2 1 1 [(5 : ℚ)]
        (fun _ buf => .ok buf.length) =
      handler_knn_search 2 .l2 1 1 ([(5 : ℚ)] ++ List.replicate 1 0)
        (fun _ buf => .ok buf.length)) ∧
    (handler_knn_search_hybrid 2 .l2 1 1 1 [] [(5 : ℚ), 6, 7]
        (fun _ buf => .ok buf.length) = .error .exitFailure) :=
  ⟨claim_C6.1 Nat 2 .l2 1 1 [(5 : ℚ)] (fun _ buf => .ok buf.length)
      (by simp) (by simp) (by simp),
    claim_C6.2.2.2 Nat 2 .l2 1 1 1 [] [(5 : ℚ), 6, 7]
      (fun _ buf => .ok buf.length) (by simp) (by simp)⟩

/-! ## Claim C9 -/

theorem writeBE_length (v : Nat) : ∀ n, (writeBE v n).length = n := by
  intro n
  induction n with
  | zero => rfl
  | succ m ih => simp [writeBE, ih]

theorem write_inverted_list_key_length (index_id list_id : Nat) :
    (write_inverted_list_key index_id list_id).length = 12 := by
  simp [write_inverted_list_key, writeBE_length]

/-- `read_inverted_list_key` either rejects the key as corrupt or strips
exactly the 12-byte `(index_id, list_id)` prefix. -/
theorem read_inverted_list_key_cases (index_id list_id : Nat)
    (key : List Nat) :
    read_inverted_list_key index_id list_id key = .error .corruptData ∨
    read_inverted_list_key index_id list_id key = .ok (key.drop 12) := by
  rw [read_inverted_list_key]
  split_ifs <;> simp

/-- Claim C9: a KV record whose key is exactly the matching
`BE32(index_id) ++ BE64(list_id)` with an empty primary-key suffix is
rejected as CorruptData by both `get_key_and_codes` and
`get_key_and_value`, whatever the value holds: a stored entry's pk suffix
must be non-empty. -/
theorem claim_C9 (isTag : Nat → Bool) (hdrSize : Nat → Nat)
    (index_id list_id code_size : Nat) (v : List Nat) :
    get_key_and_codes isTag hdrSize index_id list_id code_size
      ⟨write_inverted_list_key index_id list_id, v⟩ = .error .corruptData ∧
    get_key_and_value isTag hdrSize index_id list_id code_size
      ⟨write_inverted_list_key index_id list_id, v⟩ = .error .corruptData := by
  have hdrop : (write_inverted_list_key index_id list_id).drop 12 = [] :=
    List.drop_eq_nil_of_le (by rw [write_inverted_list_key_length])
  constructor
  · rw [get_key_and_codes]
    rcases read_inverted_list_key_cases index_id list_id
        (write_inverted_list_key index_id list_id) with hr | hr <;>
      rw [hr]
    simp [hdrop]
  · rw [get_key_and_value]
    rcases read_inverted_list_key_cases index_id list_id
        (write_inverted_list_key index_id list_id) with hr | hr <;>
      rw [hr]
    simp [hdrop]

/-! ## Claims C5 and C7: IVF error propagation -/

/-- A value shorter than `code_size` always makes `get_key_and_codes`
report CorruptData (every failure path of the accessor is CorruptData, and a
well-formed key still runs into the `extra_bytes < 0` check). -/
theorem get_key_and_codes_short (isTag : Nat → Bool) (hdrSize : Nat → Nat)
    (index_id list_id code_size : Nat) (e : IvfEntry)
    (hv : e.value.length < code_size) :
    get_key_and_codes isTag hdrSize index_id list_id code_size e =
      .error .corruptData := by
  rw [get_key_and_codes]
  rcases read_inverted_list_key_cases index_id list_id e.key with hr | hr
  · rw [hr]
  · rw [hr]
    try simp only
    split
    · rfl
    · try simp only
      rw [if_pos
        (show (e.value.length : Int) - (code_size : Int) < 0 by omega)]

/-- A decode error on one record stops the inverted-list scan with that
error, provided the records before it decode fine and the query is not
killed. -/
theorem scanInvertedList_err (isTag : Nat → Bool) (hdrSize : Nat → Nat)
    (index_id list_id code_size : Nat) (err : DbErr) :
    ∀ (pre : List IvfEntry) (e : IvfEntry) (post : List IvfEntry),
      (∀ p ∈ pre, ∃ r, get_key_and_codes isTag hdrSize index_id list_id
        code_size p = .ok r) →
      get_key_and_codes isTag hdrSize index_id list_id code_size e =
        .error err →
      scanInvertedList isTag hdrSize false index_id list_id code_size
        (pre ++ e :: post) = .error err := by
  intro pre
  induction pre with
  | nil =>
    intro e post _ he
    rw [List.nil_append, scanInvertedList, if_neg (by simp), he]
  | cons p rest ih =>
    intro e post hpre he
    obtain ⟨r, hr⟩ := hpre p (List.mem_cons_self p rest)
    rw [List.cons_append, scanInvertedList, if_neg (by simp), hr]
    simp only
    rw [ih e post (fun x hx => hpre x (List.mem_cons_of_mem p hx)) he]

/-- An erroring list stops the whole probed-list scan with that error,
provided the lists before it scan fine. -/
theorem scanProbedLists_err (isTag : Nat → Bool) (hdrSize : Nat → Nat)
    (killed : Bool) (index_id code_size : Nat) (err : DbErr) :
    ∀ (preLists : List IvfList) (l : IvfList) (rest : List IvfList),
      (∀ x ∈ preLists, ∃ r, scanInvertedList isTag hdrSize killed index_id
        x.list_id code_size x.entries = .ok r) →
      scanInvertedList isTag hdrSize killed index_id l.list_id code_size
        l.entries = .error err →
      scanProbedLists isTag hdrSize killed index_id code_size
        (preLists ++ l :: rest) = .error err := by
  intro preLists
  induction preLists with
  | nil =>
    intro l rest _ hl
    rw [List.nil_append, scanProbedLists, hl]
  | cons x xs ih =>
    intro l rest hpre hl
    obtain ⟨r, hr⟩ := hpre x (List.mem_cons_self x xs)
    rw [List.cons_append, scanProbedLists, hr]
    simp only
    rw [ih l rest (fun y hy => hpre y (List.mem_cons_of_mem x hy)) hl]

/-- Claim C5: if any inverted-list entry's value is shorter than the index's
fixed `code_size` (e.g. exactly `code_size - 1` bytes) and the scan reaches
it (all earlier probed records decode fine, no cancellation), the IVF k-NN
search returns CorruptData — an error result, so no result rows are
emitted. -/
theorem claim_C5 (isTag : Nat → Bool) (hdrSize : Nat → Nat)
    (adc : List Nat → ℚ) (index_id code_size k : Nat)
    (preLists : List IvfList) (list_id : Nat) (pre : List IvfEntry)
    (e : IvfEntry) (post : List IvfEntry) (rest : List IvfList)
    (hpreL : ∀ x ∈ preLists, ∃ r, scanInvertedList isTag hdrSize false
      index_id x.list_id code_size x.entries = .ok r)
    (hpre : ∀ p ∈ pre, ∃ r, get_key_and_codes isTag hdrSize index_id list_id
      code_size p = .ok r)
    (hv : e.value.length < code_size) :
    ivf_knn_search isTag hdrSize adc false index_id code_size k
      (preLists ++ ⟨list_id, pre ++ e :: post⟩ :: rest) =
      .error .corruptData := by
  rw [ivf_knn_search,
    scanProbedLists_err isTag hdrSize false index_id code_size .corruptData
      preLists ⟨list_id, pre ++ e :: post⟩ rest hpreL
      (scanInvertedList_err isTag hdrSize index_id list_id code_size
        .corruptData pre e post hpre
        (get_key_and_codes_short isTag hdrSize index_id list_id code_size e
          hv))]

/-- Witness for C5: a two-entry list whose second entry's value has
`code_size - 1 = 3` bytes makes the search fail with CorruptData. -/
theorem claim_C5_witness :
    ivf_knn_search exTag exHdr (fun _ => 0) false 7 4 2
      ([] ++ (⟨3, [] ++ (⟨write_inverted_list_key 7 3 ++ [9], [1, 2, 3]⟩ :
        IvfEntry) :: []⟩ : IvfList) :: []) = .error .corruptData :=
  claim_C5 exTag exHdr (fun _ => 0) 7 4 2 [] 3 []
    ⟨write_inverted_list_key 7 3 ++ [9], [1, 2, 3]⟩ [] []
    (by simp) (by simp) (by simp [write_inverted_list_key, writeBE])

/-- With the kill flag set, the inverted-list iterator refuses the pending
record and records `HA_ERR_QUERY_INTERRUPTED`. -/
theorem scanInvertedList_killed (isTag : Nat → Bool) (hdrSize : Nat → Nat)
    (index_id list_id code_size : Nat) (e : IvfEntry) (es : List IvfEntry) :
    scanInvertedList isTag hdrSize true index_id list_id code_size (e :: es) =
      .error .interrupted := by
  rw [scanInvertedList, if_pos rfl]

/-- Claim C7 counterexample: the LSM scan ignores the kill flag — with the
flag set before the first row, `knn_search_with_value` still scans the row
and returns it as a result rather than terminating with Interrupted. -/
theorem claim_C7_counterexample :
    knn_search_with_value oZero cfgPlain exFieldsPlain true [0]
        ⟨.l2, 1, 1, 0, []⟩ [⟨[1], exRowPlain 2⟩] =
      .ok ([([1], (4 : ℚ), exRowPlain 2)], 1) ∧
    (Except.ok ([([1], (4 : ℚ), exRowPlain 2)], 1) :
        Except DbErr (List ResRow × Nat)) ≠ .error .interrupted := by
  constructor
  · have hd2 : DecodeFieldFromValue cfgPlain exFieldsPlain [8]
        (exRowPlain 2) = .ok [exJson 2] := by decide
    have he2 : (ExtractVectorFromJson oZero ([exJson 2].getD 0 [])).1 =
        .ok [(2 : ℚ)] := by decide
    have hf2 : fvec_L2sqr [0] [(2 : ℚ)] ([(0 : ℚ)].length) = 4 := by
      norm_num [fvec_L2sqr, List.range_succ]
    rw [knn_search_with_value,
      lsmGo_step_ok _ _ _ _ _ _ _ _ _ _ _ (by decide) hd2 he2,
      lsmGo_nil, hf2]
    norm_num [heapEvictStep_nil, heapPush, drainReverse]
  · simp

/-- Claim C7 (amended): the kill flag is honoured by the IVF inverted-list
iterator — whenever the flag is set and a probed record is pending, the
availability check fails, the context records Interrupted and the search
returns it with no rows — but the LSM scan engine performs no cancellation
check at all: its result is identical whether or not the flag is set. -/
theorem claim_C7_amended_thm :
    (∀ (isTag : Nat → Bool) (hdrSize : Nat → Nat) (adc : List Nat → ℚ)
      (index_id code_size k : Nat) (empties : List IvfList) (l : IvfList)
      (rest : List IvfList) (e : IvfEntry) (es : List IvfEntry),
      (∀ x ∈ empties, x.entries = []) → l.entries = e :: es →
      ivf_knn_search isTag hdrSize adc true index_id code_size k
        (empties ++ l :: rest) = .error .interrupted) ∧
    (∀ (o : MathOracle) (cfg : TableConfig) (fields : List FieldInfo)
      (q : List ℚ) (params : SearchParams) (rows : List LsmRow),
      knn_search_with_value o cfg fields true q params rows =
        knn_search_with_value o cfg fields false q params rows) ∧
    (∀ (o : MathOracle) (cfg : TableConfig) (fields : List FieldInfo)
      (q : List ℚ) (params : SearchParams) (rows : List LsmRow),
      knn_search_hybrid_with_value o cfg fields true q params rows =
        knn_search_hybrid_with_value o cfg fields false q params rows) ∧
    (∀ (o : MathOracle) (cfg : TableConfig) (fields : List FieldInfo)
      (q : List ℚ) (nprobe : Nat) (rows : List LsmRow),
      index_scan_with_value o cfg fields true q nprobe rows =
        index_scan_with_value o cfg fields false q nprobe rows) := by
  refine ⟨fun isTag hdrSize adc index_id code_size k empties l rest e es
      hemp hl => ?_, fun _ _ _ _ _ _ => rfl, fun _ _ _ _ _ _ => rfl,
    fun _ _ _ _ _ _ => rfl⟩
  have hscan : scanInvertedList isTag hdrSize true index_id l.list_id
      code_size l.entries = .error .interrupted := by
    rw [hl]
    exact scanInvertedList_killed isTag hdrSize index_id l.list_id
      code_size e es
  rw [ivf_knn_search,
    scanProbedLists_err isTag hdrSize true index_id code_size .interrupted
      empties l rest
      (fun x hx => ⟨[], by rw [hemp x hx, scanInvertedList]⟩) hscan]

/-- Witness for the amended C7: set the flag, probe an exhausted list and
then a list with one pending record — the search returns Interrupted. -/
theorem claim_C7_amended_witness :
    ivf_knn_search exTag exHdr (fun _ => 0) true 7 4 2
      ([⟨5, []⟩] ++ (⟨3, [⟨write_inverted_list_key 7 3 ++ [9],
        [1, 2, 3, 4]⟩]⟩ : IvfList) :: []) = .error .interrupted :=
  claim_C7_amended_thm.1 exTag exHdr (fun _ => 0) 7 4 2 [⟨5, []⟩]
    ⟨3, [⟨write_inverted_list_key 7 3 ++ [9], [1, 2, 3, 4]⟩]⟩ []
    ⟨write_inverted_list_key 7 3 ++ [9], [1, 2, 3, 4]⟩ []
    (by simp) rfl

/-! ## Claim C4 -/

theorem mem_readIdxs {start n r : Nat} (h : r ∈ readIdxs start n) :
    start ≤ r ∧ r < start + n := by
  rw [readIdxs] at h
  obtain ⟨i, hi, rfl⟩ := List.mem_map.mp h
  rw [List.mem_range] at hi
  omega

/-- Bytes read while decoding one value entry stay below `length + 3`,
given the precondition the loop establishes (the value is inlined, or its
offset itself is in bounds).  The 3-byte overrun budget is exactly the
unchecked tail of a non-inlined int32/uint32 read. -/
theorem decodeJsonValue_reads_bound (o : MathOracle) (bytes : List Nat)
    (inlined : Bool) (vt vo : Nat)
    (hpre : inlined = true ∨ vo < bytes.length) :
    ∀ r ∈ (decodeJsonValue o bytes inlined vt vo).2, r < bytes.length + 3 := by
  intro r hr
  rw [decodeJsonValue] at hr
  split_ifs at hr <;> try simp at hr
  all_goals rcases mem_readIdxs hr with ⟨hr1, hr2⟩
  all_goals
    first
    | omega
    | (rcases hpre with hpre | hpre
       · simp_all
       · omega)

theorem jsonLoop_reads_bound (o : MathOracle) (bytes : List Nat)
    (large : Bool) (offSize entriesStart : Nat) :
    ∀ (count i : Nat) (acc : List ℚ) (reads : List Nat),
      (∀ r ∈ reads, r < bytes.length + 3) →
      ∀ r ∈ (jsonLoop o bytes large offSize entriesStart count i acc
        reads).2, r < bytes.length + 3 := by
  intro count
  induction count with
  | zero =>
    intro i acc reads hb r hr
    rw [jsonLoop] at hr
    exact hb r hr
  | succ c ih =>
    intro i acc reads hb r hr
    rw [jsonLoop] at hr
    split at hr
    · exact hb r hr
    · rename_i hguard
      push_neg at hguard
      have hentry : ∀ x ∈ reads ++
          readIdxs (entriesStart + i * (1 + offSize)) (1 + offSize),
          x < bytes.length + 3 := by
        intro x hx
        rcases List.mem_append.mp hx with hx | hx
        · exact hb x hx
        · rcases mem_readIdxs hx with ⟨h1, h2⟩
          omega
      simp only at hr
      set vt := bytes.getD (entriesStart + i * (1 + offSize)) 0 with hvt
      set ro := readLE bytes (entriesStart + i * (1 + offSize) + 1) offSize
        with hro
      split at hr
      · -- inlined value entry
        split at hr
        · rename_i e rs heq
          rcases List.mem_append.mp hr with hx | hx
          · exact hentry r hx
          · have hbound := decodeJsonValue_reads_bound o bytes true vt ro
              (Or.inl rfl) r
            rw [heq] at hbound
            exact hbound hx
        · rename_i v rs heq
          refine ih _ _ _ ?_ r hr
          intro x hx
          rcases List.mem_append.mp hx with hx | hx
          · exact hentry x hx
          · have hbound := decodeJsonValue_reads_bound o bytes true vt ro
              (Or.inl rfl) x
            rw [heq] at hbound
            exact hbound hx
      · -- non-inlined value entry
        split at hr
        · exact hentry r hr
        · rename_i hoff
          push_neg at hoff
          split at hr
          · rename_i e rs heq
            rcases List.mem_append.mp hr with hx | hx
            · exact hentry r hx
            · have hbound := decodeJsonValue_reads_bound o bytes false vt
                (ro + 1) (Or.inr hoff) r
              rw [heq] at hbound
              exact hbound hx
          · rename_i v rs heq
            refine ih _ _ _ ?_ r hr
            intro x hx
            rcases List.mem_append.mp hx with hx | hx
            · exact hentry x hx
            · have hbound := decodeJsonValue_reads_bound o bytes false vt
                (ro + 1) (Or.inr hoff) x
              rw [heq] at hbound
              exact hbound hx

theorem ExtractVectorFromJson_reads_bound (o : MathOracle)
    (bytes : List Nat) :
    ∀ r ∈ (ExtractVectorFromJson o bytes).2, r < bytes.length + 3 := by
  intro r hr
  rw [ExtractVectorFromJson] at hr
  split at hr
  · simp at hr
  · rename_i hlen
    push_neg at hlen
    simp only at hr
    split at hr
    · simp at hr
      omega
    · split at hr <;> split at hr <;> try (simp at hr; omega)
      all_goals
        rename_i hhdr
      all_goals
        push_neg at hhdr
      all_goals
        refine jsonLoop_reads_bound o bytes _ _ _ _ _ _ _ ?_ r hr
      all_goals
        intro x hx
      all_goals
        rcases List.mem_cons.mp hx with rfl | hx
      all_goals
        try omega
      all_goals
        rcases mem_readIdxs hx with ⟨h1, h2⟩
      all_goals
        omega

/-- Claim C4 counterexample: a well-formed small array with one non-inlined
int32 entry whose offset is the last byte of the container decodes
*successfully* while reading bytes 8, 9 and 10 of an 8-byte input — the
offset itself is in bounds, so no CorruptData is returned, yet the read
escapes the container. -/
theorem claim_C4_counterexample :
    (ExtractVectorFromJson oZero [2, 1, 0, 0, 0, 7, 6, 0]).1 =
      .ok [(0 : ℚ)] ∧
    8 ∈ (ExtractVectorFromJson oZero [2, 1, 0, 0, 0, 7, 6, 0]).2 ∧
    ([2, 1, 0, 0, 0, 7, 6, 0] : List Nat).length = 8 :=
  ⟨by decide, by decide, by decide⟩

/-- Claim C4 (amended): the typed-array decoder returns CorruptData when the
input is empty or its first byte is not 0x02/0x03, and when a value-entry's
type byte is unsupported for the float element type the engine instantiates
(below 0x05 — including the 0x04 literal, float being neither bool nor
integral — or above 0x0B); but for non-inlined int32 (0x07) and uint32
(0x08) only the value offset itself is bounds-checked, so the 4-byte read
may touch up to 3 bytes past the end of the input instead of returning
CorruptData — every byte position the decoder reads is below
`input length + 3`. -/
theorem claim_C4_amended_thm :
    (∀ (o : MathOracle) (bytes : List Nat),
      bytes.length < 1 ∨ (bytes.getD 0 0 ≠ 0x02 ∧ bytes.getD 0 0 ≠ 0x03) →
      (ExtractVectorFromJson o bytes).1 = .error .corruptData) ∧
    (∀ (o : MathOracle) (bytes : List Nat) (inlined : Bool) (vt vo : Nat),
      vt < 0x05 ∨ 0x0B < vt →
      (decodeJsonValue o bytes inlined vt vo).1 = .error .corruptData) ∧
    (∀ (o : MathOracle) (bytes : List Nat),
      ∀ r ∈ (ExtractVectorFromJson o bytes).2, r < bytes.length + 3) := by
  refine ⟨fun o bytes h => ?_, fun o bytes inlined vt vo h => ?_,
    fun o bytes => ExtractVectorFromJson_reads_bound o bytes⟩
  · rw [ExtractVectorFromJson]
    split
    · rfl
    · rename_i hlen
      push_neg at hlen
      rcases h with h | h
      · omega
      · simp only
        rw [if_pos h]
  · rw [decodeJsonValue]
    split_ifs <;> first | rfl | omega

/-- Witness for the amended C4: a wrong type byte is rejected; element types
0x0C and the 0x04 literal are rejected for the float instantiation; the
out-of-container read of the counterexample input stays within 3 bytes past
the end. -/
theorem claim_C4_amended_witness :
    ((ExtractVectorFromJson oZero [7, 1, 0]).1 = .error .corruptData) ∧
    ((decodeJsonValue oZero [] false 0x0C 0).1 = .error .corruptData) ∧
    ((decodeJsonValue oZero [] true 0x04 1).1 = .error .corruptData) ∧
    (8 < ([2, 1, 0, 0, 0, 7, 6, 0] : List Nat).length + 3) :=
  ⟨claim_C4_amended_thm.1 oZero [7, 1, 0] (by simp),
    claim_C4_amended_thm.2.1 oZero [] false 0x0C 0 (by omega),
    claim_C4_amended_thm.2.1 oZero [] true 0x04 1 (by omega),
    claim_C4_amended_thm.2.2 oZero [2, 1, 0, 0, 0, 7, 6, 0] 8 (by decide)⟩

/-! ## Claim C1 -/

theorem writeSlot_length (out : List (List Nat)) (slot : Option Nat)
    (s : List Nat) : (writeSlot out slot s).length = out.length := by
  cases slot <;> simp [writeSlot]

theorem writeSlot_getD_self {out : List (List Nat)} {j : Nat}
    (hj : j < out.length) (s : List Nat) :
    (writeSlot out (some j) s).getD j [] = s := by
  simp only [writeSlot]
  rw [List.getD_eq_getElem?_getD, List.getElem?_set_eq_of_lt _ hj]
  rfl

theorem writeSlot_getD_other {out : List (List Nat)} {slot : Option Nat}
    {j : Nat} (hne : slot ≠ some j) (s : List Nat) :
    (writeSlot out slot s).getD j [] = out.getD j [] := by
  cases slot with
  | none => rfl
  | some j' =>
    have hj' : j' ≠ j := fun hh => hne (by rw [hh])
    simp only [writeSlot]
    rw [List.getD_eq_getElem?_getD, List.getElem?_set_ne hj',
      ← List.getD_eq_getElem?_getD]

theorem writeSlot_getD_eq {reqs1 reqs2 : List Nat} {i j1 j2 : Nat}
    (hiff : lastIdxOf reqs1 i = some j1 ↔ lastIdxOf reqs2 i = some j2)
    {out1 out2 : List (List Nat)} (hj1 : j1 < out1.length)
    (hj2 : j2 < out2.length) (heq : out1.getD j1 [] = out2.getD j2 [])
    (s : List Nat) :
    (writeSlot out1 (lastIdxOf reqs1 i) s).getD j1 [] =
    (writeSlot out2 (lastIdxOf reqs2 i) s).getD j2 [] := by
  by_cases h1 : lastIdxOf reqs1 i = some j1
  · rw [h1, hiff.mp h1, writeSlot_getD_self hj1, writeSlot_getD_self hj2]
  · have h2 : lastIdxOf reqs2 i ≠ some j2 := fun hh => h1 (hiff.mpr hh)
    rw [writeSlot_getD_other h1, writeSlot_getD_other h2]
    exact heq

/-- Two-run correspondence of the field loop: the cursor, the error
behaviour, and any pair of slots that track the same field are identical
across runs with different request lists. -/
theorem decodeLoop_slot_eq (value : List Nat) (ns : Nat) (hn : Bool)
    (reqs1 reqs2 : List Nat) (j1 j2 : Nat) :
    ∀ (items : List (Nat × FieldInfo)) (pos : Nat)
      (out1 out2 : List (List Nat)),
      j1 < out1.length → j2 < out2.length →
      out1.getD j1 [] = out2.getD j2 [] →
      (∀ p ∈ items, (lastIdxOf reqs1 p.1 = some j1 ↔
        lastIdxOf reqs2 p.1 = some j2)) →
      (decodeLoop value ns hn reqs1 items pos out1 = .error .corruptData ∧
       decodeLoop value ns hn reqs2 items pos out2 = .error .corruptData) ∨
      (∃ o1 o2 p',
        decodeLoop value ns hn reqs1 items pos out1 = .ok (o1, p') ∧
        decodeLoop value ns hn reqs2 items pos out2 = .ok (o2, p') ∧
        o1.getD j1 [] = o2.getD j2 [])
  | [], pos, out1, out2 => by
    intro hj1 hj2 heq hiff
    exact Or.inr ⟨out1, out2, pos, by rw [decodeLoop], by rw [decodeLoop],
      heq⟩
  | (i, f) :: rest, pos, out1, out2 => by
    intro hj1 hj2 heq hiff
    have hiffi := hiff (i, f) (List.mem_cons_self _ _)
    have hiffr := fun p hp => hiff p (List.mem_cons_of_mem _ hp)
    simp only [decodeLoop]
    by_cases hnull : fieldIsNull value ns hn f i = true
    · simp only [if_pos hnull]
      exact decodeLoop_slot_eq value ns hn reqs1 reqs2 j1 j2 rest pos _ _
        (by rw [writeSlot_length]; exact hj1)
        (by rw [writeSlot_length]; exact hj2)
        (writeSlot_getD_eq hiffi hj1 hj2 heq []) hiffr
    · simp only [if_neg hnull]
      by_cases hvt : f.ftype = MYSQL_TYPE_VARCHAR
      · simp only [if_pos hvt]
        by_cases hr1 : value.length - pos < f.length_bytes
        · simp only [if_pos hr1]
          exact Or.inl ⟨by trivial, by trivial⟩
        · simp only [if_neg hr1]
          by_cases hr2 : value.length - pos - f.length_bytes <
              (if f.length_bytes = 1 then value.getD pos 0
               else readLE value pos 2)
          · simp only [if_pos hr2]
            exact Or.inl ⟨by trivial, by trivial⟩
          · simp only [if_neg hr2]
            exact decodeLoop_slot_eq value ns hn reqs1 reqs2 j1 j2 rest _
              _ _
              (by rw [writeSlot_length]; exact hj1)
              (by rw [writeSlot_length]; exact hj2)
              (writeSlot_getD_eq hiffi hj1 hj2 heq _) hiffr
      · simp only [if_neg hvt]
        by_cases hbt : f.ftype = MYSQL_TYPE_BLOB ∨ f.ftype = MYSQL_TYPE_JSON
            ∨ f.ftype = MYSQL_TYPE_GEOMETRY
        · simp only [if_pos hbt]
          by_cases hr1 : value.length - pos < f.length_bytes
          · simp only [if_pos hr1]
            exact Or.inl ⟨by trivial, by trivial⟩
          · simp only [if_neg hr1]
            by_cases hr2 : value.length - pos - f.length_bytes <
                readLE value pos f.length_bytes
            · simp only [if_pos hr2]
              exact Or.inl ⟨by trivial, by trivial⟩
            · simp only [if_neg hr2]
              exact decodeLoop_slot_eq value ns hn reqs1 reqs2 j1 j2 rest _
                _ _
                (by rw [writeSlot_length]; exact hj1)
                (by rw [writeSlot_length]; exact hj2)
                (writeSlot_getD_eq hiffi hj1 hj2 heq _) hiffr
        · simp only [if_neg hbt]
          by_cases hr3 : value.length - pos < f.pack_length
          · simp only [if_pos hr3]
            exact Or.inl ⟨by trivial, by trivial⟩
          · simp only [if_neg hr3]
            exact decodeLoop_slot_eq value ns hn reqs1 reqs2 j1 j2 rest _
              _ _
              (by rw [writeSlot_length]; exact hj1)
              (by rw [writeSlot_length]; exact hj2)
              (writeSlot_getD_eq hiffi hj1 hj2 heq _) hiffr

theorem lastIdxOf_getD {reqs : List Nat} {i j : Nat}
    (h : lastIdxOf reqs i = some j) : reqs.getD j 0 = i := by
  induction reqs generalizing j with
  | nil => simp [lastIdxOf] at h
  | cons r rest ih =>
    rw [lastIdxOf] at h
    rcases hre : lastIdxOf rest i with _ | j'
    · rw [hre] at h
      split_ifs at h with hri
      · injection h with h
        rw [← h, hri]
        rfl
    · rw [hre] at h
      injection h with h
      rw [← h]
      simpa using ih hre

theorem lastIdxOf_of_not_mem {reqs : List Nat} {i : Nat} (h : i ∉ reqs) :
    lastIdxOf reqs i = none := by
  induction reqs with
  | nil => rfl
  | cons r rest ih =>
    rw [lastIdxOf, ih (fun hh => h (List.mem_cons_of_mem r hh))]
    rw [if_neg (fun hh : r = i => h (hh ▸ List.mem_cons_self r rest))]

theorem lastIdxOf_getD_self {reqs : List Nat} (hnd : reqs.Nodup) :
    ∀ {j : Nat}, j < reqs.length → lastIdxOf reqs (reqs.getD j 0) = some j := by
  induction reqs with
  | nil => intro j hj; simp at hj
  | cons r rest ih =>
    intro j hj
    rcases List.nodup_cons.mp hnd with ⟨hr, hrest⟩
    cases j with
    | zero =>
      have : (r :: rest).getD 0 0 = r := rfl
      rw [this, lastIdxOf, lastIdxOf_of_not_mem hr, if_pos rfl]
    | succ j' =>
      have hj' : j' < rest.length := by simpa using hj
      have : (r :: rest).getD (j' + 1) 0 = rest.getD j' 0 := rfl
      rw [this, lastIdxOf, ih hrest hj']

theorem lastIdxOf_singleton {r x : Nat} :
    lastIdxOf [r] x = some 0 ↔ x = r := by
  rw [lastIdxOf, lastIdxOf]
  split_ifs with h
  · simp [h.symm]
  · simp
    exact fun hh => h hh.symm

theorem maxFieldIndex_ge {reqs : List Nat} :
    ∀ r ∈ reqs, r ≤ maxFieldIndex reqs := by
  have hgen : ∀ (l : List Nat) (b : Nat), b ≤ l.foldl max b ∧
      ∀ r ∈ l, r ≤ l.foldl max b := by
    intro l
    induction l with
    | nil => intro b; simp
    | cons x xs ih =>
      intro b
      refine ⟨le_trans (le_max_left b x) (ih (max b x)).1, ?_⟩
      intro r hr
      rcases List.mem_cons.mp hr with rfl | hr
      · exact le_trans (le_max_right b r) (ih (max b r)).1
      · exact (ih (max b x)).2 r hr
  exact fun r hr => (hgen reqs 0).2 r hr

theorem getD_replicate_nil {n j : Nat} (hj : j < n) :
    (List.replicate n ([] : List Nat)).getD j [] = [] := by
  rw [List.getD_eq_getElem?_getD, List.getElem?_replicate]
  simp [hj]

theorem eq_singleton_of_length_one {l : List (List Nat)}
    (hl : l.length = 1) : l = [l.getD 0 []] := by
  match l with
  | [x] => rfl

/-- Generic preservation of an output-only invariant through the field
loop. -/
theorem decodeLoop_out_invariant (value : List Nat) (ns : Nat) (hn : Bool)
    (reqs : List Nat) (Q : List (List Nat) → Prop) :
    ∀ (items : List (Nat × FieldInfo)) (pos : Nat)
      (out o : List (List Nat)) (p : Nat),
      (∀ it ∈ items, ∀ (out2 : List (List Nat)) (s : List Nat), Q out2 →
        Q (writeSlot out2 (lastIdxOf reqs it.1) s)) →
      Q out →
      decodeLoop value ns hn reqs items pos out = .ok (o, p) → Q o := by
  intro items
  induction items with
  | nil =>
    intro pos out o p _ hq h
    rw [decodeLoop] at h
    injection h with h
    injection h with h1 h2
    rw [← h1]
    exact hq
  | cons it rest ih =>
    obtain ⟨i, f⟩ := it
    intro pos out o p hstep hq h
    rw [decodeLoop] at h
    have hstepr := fun it hit => hstep it (List.mem_cons_of_mem _ hit)
    have hsf := hstep (i, f) (List.mem_cons_self _ _)
    simp only at h
    repeat' split at h
    all_goals
      first
      | exact Except.noConfusion h
      | exact ih _ _ _ _ hstepr (hsf out _ hq) h

/-- The final cursor of a successful field loop stays within the value. -/
theorem decodeLoop_pos_le (value : List Nat) (ns : Nat) (hn : Bool)
    (reqs : List Nat) :
    ∀ (items : List (Nat × FieldInfo)) (pos : Nat)
      (out o : List (List Nat)) (p : Nat),
      pos ≤ value.length →
      decodeLoop value ns hn reqs items pos out = .ok (o, p) →
      p ≤ value.length := by
  intro items
  induction items with
  | nil =>
    intro pos out o p hpos h
    rw [decodeLoop] at h
    injection h with h
    injection h with h1 h2
    omega
  | cons it rest ih =>
    obtain ⟨i, f⟩ := it
    intro pos out o p hpos h
    rw [decodeLoop] at h
    simp only at h
    repeat' split at h
    all_goals
      first
      | exact Except.noConfusion h
      | (refine ih _ _ _ _ ?_ h; omega)

/-- Prefix decomposition of the field loop. -/
theorem decodeLoop_append (value : List Nat) (ns : Nat) (hn : Bool)
    (reqs : List Nat) :
    ∀ (as bs : List (Nat × FieldInfo)) (pos : Nat)
      (out : List (List Nat)),
      decodeLoop value ns hn reqs (as ++ bs) pos out =
        match decodeLoop value ns hn reqs as pos out with
        | .error e => .error e
        | .ok (o, p) => decodeLoop value ns hn reqs bs p o := by
  intro as
  induction as with
  | nil =>
    intro bs pos out
    rw [List.nil_append, decodeLoop]
  | cons it rest ih =>
    obtain ⟨i, f⟩ := it
    intro bs pos out
    rw [List.cons_append, decodeLoop]
    conv_rhs => rw [decodeLoop]
    simp only
    repeat' split
    all_goals
      first
      | rfl
      | exact ih bs _ _
      | (rename_i heq
         rw [ih bs _ _, heq])
      | (rename_i heq
         exact heq)
      | (rename_i heq
         exact Except.noConfusion heq)

/-- `enumFrom` splits at any point of the underlying list. -/
theorem enumFrom_take_drop {α : Type} (l : List α) :
    ∀ (n k : Nat), l.enumFrom k =
      (l.take n).enumFrom k ++ (l.drop n).enumFrom (k + (l.take n).length) := by
  induction l with
  | nil => intro n k; simp
  | cons a l ih =>
    intro n k
    cases n with
    | zero => simp
    | succ m =>
      rw [List.take_succ_cons, List.drop_succ_cons, List.enumFrom,
        List.enumFrom, List.cons_append, ih m (k + 1)]
      have hlen : k + (a :: l.take m).length = k + 1 + (l.take m).length := by
        simp only [List.length_cons]
        omega
      rw [hlen]

/-- `enum` splits at any point of the underlying list. -/
theorem enum_take_drop {α : Type} (l : List α) (n : Nat) :
    l.enum = (l.take n).enum ++ (l.drop n).enumFrom ((l.take n).length) := by
  have := enumFrom_take_drop l n 0
  simpa [List.enum] using this

theorem decode_ok_of_aux {cfg : TableConfig} {fields : List FieldInfo}
    {reqs : List Nat} {value : List Nat} {out : List (List Nat)} {p : Nat}
    (h : DecodeFieldFromValueAux cfg fields reqs value = .ok (out, p)) :
    DecodeFieldFromValue cfg fields reqs value = .ok out := by
  rw [DecodeFieldFromValue, h]
  rfl

theorem aux_ok_of_decode {cfg : TableConfig} {fields : List FieldInfo}
    {reqs : List Nat} {value : List Nat} {out : List (List Nat)}
    (h : DecodeFieldFromValue cfg fields reqs value = .ok out) :
    ∃ p, DecodeFieldFromValueAux cfg fields reqs value = .ok (out, p) := by
  rw [DecodeFieldFromValue] at h
  cases ha : DecodeFieldFromValueAux cfg fields reqs value with
  | error e =>
    rw [ha] at h
    exact Except.noConfusion h
  | ok op =>
    rw [ha] at h
    obtain ⟨o, p⟩ := op
    refine ⟨p, ?_⟩
    simp only [Except.map] at h
    injection h with h
    rw [← h]

theorem mem_enumFrom_fst_ge {α : Type} {p : Nat × α} {l : List α} {n : Nat}
    (h : p ∈ l.enumFrom n) : n ≤ p.1 := by
  obtain ⟨i, x⟩ := p
  exact (List.mk_mem_enumFrom_iff_le_and_getElem?_sub.mp h).1

theorem maxFieldIndex_singleton (r : Nat) : maxFieldIndex [r] = r := by
  simp [maxFieldIndex]

/-- Order property of the row decoder: the slice at position `j` of a
successful multi-field request equals the (unique) slice of the singleton
request for `reqs[j]`. -/
theorem DecodeFieldFromValue_order (cfg : TableConfig)
    (fields : List FieldInfo) (value : List Nat) (reqs : List Nat)
    (hnd : reqs.Nodup) (j : Nat) (hj : j < reqs.length)
    (out : List (List Nat))
    (h : DecodeFieldFromValue cfg fields reqs value = .ok out) :
    DecodeFieldFromValue cfg fields [reqs.getD j 0] value =
      .ok [out.getD j []] := by
  obtain ⟨p, hA⟩ := aux_ok_of_decode h
  rw [DecodeFieldFromValueAux] at hA
  split at hA
  · exact Except.noConfusion hA
  · split at hA
    · exact Except.noConfusion hA
    · split at hA
      · rename_i hemp
        rw [List.isEmpty_iff] at hemp
        rw [hemp] at hj
        simp at hj
      · split at hA
        · exact Except.noConfusion hA
        · rename_i httl hnull hemp hany
          -- the request indices are all valid
          have hval : ∀ q ∈ reqs, q < fields.length := by
            intro q hq
            by_contra hc
            push_neg at hc
            exact hany (List.any_eq_true.mpr ⟨q, hq, by simpa using hc⟩)
          set r := reqs.getD j 0 with hr
          have hrmem : r ∈ reqs := by
            rw [hr, List.getD_eq_getElem?_getD, List.getElem?_eq_getElem hj]
            exact List.getElem_mem hj
          have hrlt : r < fields.length := hval r hrmem
          have hrmax : r ≤ maxFieldIndex reqs := maxFieldIndex_ge r hrmem
          have hAlen : (fields.take (r + 1)).length = r + 1 := by
            rw [List.length_take]
            omega
          -- split the walked fields at index r+1
          rw [enum_take_drop (fields.take (maxFieldIndex reqs + 1)) (r + 1)]
            at hA
          rw [List.take_take, min_eq_left (by omega)] at hA
          rw [decodeLoop_append] at hA
          cases hpre : decodeLoop value (ttlOffset cfg)
              (0 < cfg.null_bytes_length) reqs
              ((fields.take (r + 1)).enum)
              (ttlOffset cfg + cfg.null_bytes_length)
              (List.replicate reqs.length []) with
          | error e =>
            rw [hpre] at hA
            exact Except.noConfusion hA
          | ok oApA =>
            obtain ⟨oA, pA⟩ := oApA
            rw [hpre] at hA
            simp only at hA
            -- the suffix fields never write slot j
            have houtj : out.getD j [] = oA.getD j [] := by
              refine decodeLoop_out_invariant value _ _ reqs
                (fun o => o.getD j [] = oA.getD j []) _ _ _ _ _ ?_ rfl hA
              intro it hit out2 s hq
              rw [writeSlot_getD_other ?_ s]
              · exact hq
              · intro hsome
                have h1 := lastIdxOf_getD hsome
                have h2 := mem_enumFrom_fst_ge hit
                rw [← hr] at h1
                omega
            -- the two-run correspondence on the shared prefix
            have hiffAll : ∀ q ∈ (fields.take (r + 1)).enum,
                lastIdxOf reqs q.1 = some j ↔ lastIdxOf [r] q.1 = some 0 := by
              intro q hq
              constructor
              · intro hsome
                have := lastIdxOf_getD hsome
                rw [← hr] at this
                rw [lastIdxOf_singleton, this]
              · intro hsome
                have hq1 : q.1 = r := lastIdxOf_singleton.mp hsome
                rw [hq1, hr]
                exact lastIdxOf_getD_self hnd hj
            rcases decodeLoop_slot_eq value (ttlOffset cfg)
                (0 < cfg.null_bytes_length) reqs [r] j 0
                ((fields.take (r + 1)).enum)
                (ttlOffset cfg + cfg.null_bytes_length)
                (List.replicate reqs.length []) [[]]
                (by simp [hj]) (by simp)
                (by rw [getD_replicate_nil (by simpa using hj)]; rfl)
                hiffAll with hboth | hok
            · rw [hpre] at hboth
              exact Except.noConfusion hboth.1
            · obtain ⟨o1, o2, p', h1, h2, h12⟩ := hok
              rw [hpre] at h1
              injection h1 with h1
              injection h1 with h1a h1b
              -- assemble the singleton run
              have hsing : DecodeFieldFromValueAux cfg fields [r] value =
                  .ok (o2, p') := by
                rw [DecodeFieldFromValueAux]
                rw [if_neg (by assumption), if_neg (by assumption)]
                rw [if_neg (by simp)]
                rw [if_neg (by simp; omega)]
                rw [maxFieldIndex_singleton]
                exact h2
              have hlen2 : o2.length = 1 := by
                refine decodeLoop_out_invariant value (ttlOffset cfg)
                  (0 < cfg.null_bytes_length) [r] (fun o => o.length = 1)
                  ((fields.take (r + 1)).enum)
                  (ttlOffset cfg + cfg.null_bytes_length) [[]] o2 p'
                  ?_ (by simp) h2
                intro it hit out2 s hq
                rw [writeSlot_length]
                exact hq
              rw [decode_ok_of_aux hsing]
              rw [eq_singleton_of_length_one hlen2]
              rw [← h1a] at h12
              rw [houtj, ← h12]

theorem DecodeFieldFromValue_length {cfg : TableConfig}
    {fields : List FieldInfo} {reqs : List Nat} {value : List Nat}
    {out : List (List Nat)}
    (h : DecodeFieldFromValue cfg fields reqs value = .ok out) :
    out.length = reqs.length := by
  obtain ⟨p, hA⟩ := aux_ok_of_decode h
  rw [DecodeFieldFromValueAux] at hA
  split at hA
  · exact Except.noConfusion hA
  · split at hA
    · exact Except.noConfusion hA
    · split at hA
      · rename_i hemp
        rw [List.isEmpty_iff] at hemp
        injection hA with hA
        injection hA with hA1 hA2
        rw [← hA1, hemp]
        rfl
      · split at hA
        · exact Except.noConfusion hA
        · have := decodeLoop_out_invariant value (ttlOffset cfg)
            (0 < cfg.null_bytes_length) reqs
            (fun o => o.length = reqs.length) _ _
            (List.replicate reqs.length []) out p
            (fun it hit out2 s hq => by
              show (writeSlot out2 (lastIdxOf reqs it.1) s).length = reqs.length
              rw [writeSlot_length]
              exact hq)
            (by simp) hA
          exact this

theorem DecodeFieldFromValueAux_pos_le {cfg : TableConfig}
    {fields : List FieldInfo} {reqs : List Nat} {value : List Nat}
    {out : List (List Nat)} {p : Nat}
    (h : DecodeFieldFromValueAux cfg fields reqs value = .ok (out, p)) :
    p ≤ value.length := by
  rw [DecodeFieldFromValueAux] at h
  split at h
  · exact Except.noConfusion h
  · rename_i httl
    split at h
    · exact Except.noConfusion h
    · rename_i hnb
      have hstart : ttlOffset cfg + cfg.null_bytes_length ≤ value.length := by
        rw [ttlOffset] at hnb ⊢
        by_cases hb : cfg.has_ttl = true
        · rw [if_pos hb] at hnb ⊢
          have : ¬ value.length < 8 := fun hc => httl ⟨hb, hc⟩
          omega
        · rw [if_neg hb] at hnb ⊢
          omega
      split at h
      · injection h with h
        injection h with h1 h2
        omega
      · split at h
        · exact Except.noConfusion h
        · exact decodeLoop_pos_le value _ _ reqs _ _ _ _ _ hstart h

theorem DecodeFieldFromValue_short {cfg : TableConfig}
    {fields : List FieldInfo} {reqs : List Nat} {value : List Nat}
    (h : value.length < ttlOffset cfg + cfg.null_bytes_length) :
    DecodeFieldFromValue cfg fields reqs value = .error .corruptData := by
  rw [DecodeFieldFromValue, DecodeFieldFromValueAux]
  rw [ttlOffset] at h
  by_cases h1 : cfg.has_ttl = true
  · rw [if_pos h1] at h
    by_cases h2 : value.length < 8
    · rw [if_pos ⟨h1, h2⟩]
      rfl
    · rw [if_neg (fun hc => h2 hc.2),
        if_pos (show value.length - ttlOffset cfg < cfg.null_bytes_length by
          rw [ttlOffset, if_pos h1]
          omega)]
      rfl
  · rw [if_neg (fun hc => h1 hc.1),
      if_pos (show value.length - ttlOffset cfg < cfg.null_bytes_length by
        rw [ttlOffset, if_neg h1]
        simp only [if_neg h1] at h
        omega)]
    rfl

theorem list_any_congr {α : Type} {f g : α → Bool} :
    ∀ {l : List α}, (∀ a ∈ l, f a = g a) → l.any f = l.any g := by
  intro l
  induction l with
  | nil => intro _; rfl
  | cons a t ih =>
    intro h
    simp only [List.any_cons]
    rw [h a (List.mem_cons_self a t), ih (fun b hb => h b (List.mem_cons_of_mem a hb))]

theorem DecodeFieldFromValue_truncate (cfg : TableConfig)
    (fields : List FieldInfo) (reqs : List Nat) (value : List Nat) :
    DecodeFieldFromValue cfg fields reqs value =
    DecodeFieldFromValue cfg (fields.take (maxFieldIndex reqs + 1)) reqs
      value := by
  rw [DecodeFieldFromValue, DecodeFieldFromValue, DecodeFieldFromValueAux,
    DecodeFieldFromValueAux]
  have hany : (reqs.any fun q => decide (fields.length ≤ q)) =
      (reqs.any fun q =>
        decide ((fields.take (maxFieldIndex reqs + 1)).length ≤ q)) := by
    apply list_any_congr
    intro q hq
    have hqm : q ≤ maxFieldIndex reqs := maxFieldIndex_ge q hq
    apply decide_eq_decide.mpr
    rw [List.length_take]
    omega
  rw [hany, List.take_take, min_self]

theorem DecodeFieldFromValue_null (cfg : TableConfig)
    (fields : List FieldInfo) (value : List Nat) (reqs : List Nat)
    (hnd : reqs.Nodup) (j : Nat) (hj : j < reqs.length)
    (out : List (List Nat))
    (h : DecodeFieldFromValue cfg fields reqs value = .ok out)
    (hnl : fieldIsNull value (ttlOffset cfg)
      (decide (0 < cfg.null_bytes_length))
      (fields.getD (reqs.getD j 0) ⟨0, false, 0, 0⟩) (reqs.getD j 0) = true) :
    out.getD j [] = [] := by
  have hsing := DecodeFieldFromValue_order cfg fields value reqs hnd j hj out h
  set r := reqs.getD j 0 with hr
  obtain ⟨p, hA⟩ := aux_ok_of_decode hsing
  rw [DecodeFieldFromValueAux] at hA
  split at hA
  · exact Except.noConfusion hA
  · split at hA
    · exact Except.noConfusion hA
    · split at hA
      · rename_i hemp
        simp at hemp
      · split at hA
        · exact Except.noConfusion hA
        · rename_i httl hnull hemp hany
          have hrlt : r < fields.length := by
            by_contra hc
            push_neg at hc
            exact hany (by simp; omega)
          have hget : fields.getD r ⟨0, false, 0, 0⟩ = fields[r] := by
            rw [List.getD_eq_getElem?_getD, List.getElem?_eq_getElem hrlt]
            rfl
          rw [maxFieldIndex_singleton] at hA
          have hrep : List.replicate ([r] : List Nat).length
              ([] : List Nat) = [[]] := rfl
          rw [hrep] at hA
          rw [enum_take_drop (fields.take (r + 1)) r] at hA
          rw [List.take_take, min_eq_left (by omega)] at hA
          have htklen : (fields.take r).length = r := by
            rw [List.length_take]
            omega
          have hdrop : (fields.take (r + 1)).drop r = [fields[r]] := by
            rw [List.drop_take, List.drop_eq_getElem_cons hrlt,
              show r + 1 - r = 1 by omega]
            rfl
          rw [hdrop, htklen] at hA
          simp only [List.enumFrom] at hA
          rw [decodeLoop_append] at hA
          cases hpre : decodeLoop value (ttlOffset cfg)
              (decide (0 < cfg.null_bytes_length)) [r]
              ((fields.take r).enum)
              (ttlOffset cfg + cfg.null_bytes_length) [[]] with
          | error e =>
            rw [hpre] at hA
            exact Except.noConfusion hA
          | ok o1p1 =>
            obtain ⟨o1, p1⟩ := o1p1
            rw [hpre] at hA
            simp only at hA
            have hlen1 : o1.length = 1 := by
              refine decodeLoop_out_invariant value (ttlOffset cfg)
                (decide (0 < cfg.null_bytes_length)) [r]
                (fun o => o.length = 1) ((fields.take r).enum)
                (ttlOffset cfg + cfg.null_bytes_length) [[]] o1 p1
                ?_ (by simp) hpre
              intro it hit out2 s hq
              show (writeSlot out2 (lastIdxOf [r] it.1) s).length = 1
              rw [writeSlot_length]
              exact hq
            rw [decodeLoop] at hA
            simp only at hA
            rw [hget] at hnl
            rw [if_pos hnl] at hA
            rw [decodeLoop] at hA
            injection hA with hA
            injection hA with hA1 hA2
            have hslot : lastIdxOf [r] r = some 0 := lastIdxOf_singleton.mpr rfl
            rw [hslot] at hA1
            have := congrArg (fun l => l.getD 0 []) hA1
            simp only at this
            rw [writeSlot_getD_self (by omega) []] at this
            simpa using this.symm

/-- Claim C8: for every row value, layout, and request list, the row-value
decoder `DecodeFieldFromValue` returns exactly one slice per requested field
index, placed in the order requested (the slice at position `j` is the slice
the singleton request for `reqs[j]` yields); a field whose null bit is set
yields an empty slice and consumes zero payload bytes; fields past the
maximum requested index are never parsed; and any length overrun returns
CorruptData — a TTL / null-bitmap overrun, a length-prefix overrun at a
variable-length field, and a payload that extends past the end of the value
(the decoded length exceeding the bytes remaining after the prefix), for
both the VARCHAR and the BLOB/JSON/GEOMETRY branches — while a successful
decode never moves the cursor past the end of the value. -/
theorem claim_C8 (cfg : TableConfig) (fields : List FieldInfo)
    (reqs : List Nat) (value : List Nat) :
    (∀ out, DecodeFieldFromValue cfg fields reqs value = .ok out →
      out.length = reqs.length) ∧
    (∀ out j, reqs.Nodup → j < reqs.length →
      DecodeFieldFromValue cfg fields reqs value = .ok out →
      DecodeFieldFromValue cfg fields [reqs.getD j 0] value =
        .ok [out.getD j []]) ∧
    (∀ out j, reqs.Nodup → j < reqs.length →
      DecodeFieldFromValue cfg fields reqs value = .ok out →
      fieldIsNull value (ttlOffset cfg) (decide (0 < cfg.null_bytes_length))
        (fields.getD (reqs.getD j 0) ⟨0, false, 0, 0⟩) (reqs.getD j 0) =
        true →
      out.getD j [] = []) ∧
    (∀ (ns : Nat) (hn : Bool) (i : Nat) (f : FieldInfo)
      (rest : List (Nat × FieldInfo)) (pos : Nat) (out : List (List Nat)),
      fieldIsNull value ns hn f i = true →
      decodeLoop value ns hn reqs ((i, f) :: rest) pos out =
        decodeLoop value ns hn reqs rest pos
          (writeSlot out (lastIdxOf reqs i) [])) ∧
    (DecodeFieldFromValue cfg fields reqs value =
      DecodeFieldFromValue cfg (fields.take (maxFieldIndex reqs + 1)) reqs
        value) ∧
    (value.length < ttlOffset cfg + cfg.null_bytes_length →
      DecodeFieldFromValue cfg fields reqs value = .error .corruptData) ∧
    (∀ (ns : Nat) (hn : Bool) (i : Nat) (f : FieldInfo)
      (rest : List (Nat × FieldInfo)) (pos : Nat) (out : List (List Nat)),
      fieldIsNull value ns hn f i = false →
      (f.ftype = MYSQL_TYPE_VARCHAR ∨ (f.ftype = MYSQL_TYPE_BLOB ∨
        f.ftype = MYSQL_TYPE_JSON ∨ f.ftype = MYSQL_TYPE_GEOMETRY)) →
      value.length - pos < f.length_bytes →
      decodeLoop value ns hn reqs ((i, f) :: rest) pos out =
        .error .corruptData) ∧
    (∀ (ns : Nat) (hn : Bool) (i : Nat) (f : FieldInfo)
      (rest : List (Nat × FieldInfo)) (pos : Nat) (out : List (List Nat)),
      fieldIsNull value ns hn f i = false →
      f.ftype = MYSQL_TYPE_VARCHAR →
      f.length_bytes ≤ value.length - pos →
      value.length - pos - f.length_bytes <
        (if f.length_bytes = 1 then value.getD pos 0
         else readLE value pos 2) →
      decodeLoop value ns hn reqs ((i, f) :: rest) pos out =
        .error .corruptData) ∧
    (∀ (ns : Nat) (hn : Bool) (i : Nat) (f : FieldInfo)
      (rest : List (Nat × FieldInfo)) (pos : Nat) (out : List (List Nat)),
      fieldIsNull value ns hn f i = false →
      (f.ftype = MYSQL_TYPE_BLOB ∨ f.ftype = MYSQL_TYPE_JSON ∨
        f.ftype = MYSQL_TYPE_GEOMETRY) →
      f.length_bytes ≤ value.length - pos →
      value.length - pos - f.length_bytes < readLE value pos f.length_bytes →
      decodeLoop value ns hn reqs ((i, f) :: rest) pos out =
        .error .corruptData) ∧
    (∀ out p, DecodeFieldFromValueAux cfg fields reqs value = .ok (out, p) →
      p ≤ value.length) := by
  refine ⟨?_, ?_, ?_, ?_, ?_, ?_, ?_, ?_, ?_, ?_⟩
  · intro out h
    exact DecodeFieldFromValue_length h
  · intro out j hnd hj h
    exact DecodeFieldFromValue_order cfg fields value reqs hnd j hj out h
  · intro out j hnd hj h hnl
    exact DecodeFieldFromValue_null cfg fields value reqs hnd j hj out h hnl
  · intro ns hn i f rest pos out hn1
    rw [decodeLoop]
    simp only
    rw [if_pos hn1]
  · exact DecodeFieldFromValue_truncate cfg fields reqs value
  · intro hshort
    exact DecodeFieldFromValue_short hshort
  · intro ns hn i f rest pos out hnf htype hover
    rw [decodeLoop]
    simp only
    rw [if_neg (by simp [hnf])]
    by_cases hv : f.ftype = MYSQL_TYPE_VARCHAR
    · rw [if_pos hv, if_pos hover]
    · rcases htype with h | h
      · exact absurd h hv
      · rw [if_neg hv, if_pos h, if_pos hover]
  · intro ns hn i f rest pos out hnf hv hfit hover
    rw [decodeLoop]
    simp only
    rw [if_neg (by simp [hnf]), if_pos hv, if_neg (by omega), if_pos hover]
  · intro ns hn i f rest pos out hnf htype hfit hover
    have hnv : ¬ f.ftype = MYSQL_TYPE_VARCHAR := by
      rcases htype with h | h | h <;> rw [h] <;> decide
    rw [decodeLoop]
    simp only
    rw [if_neg (by simp [hnf]), if_neg hnv, if_pos htype, if_neg (by omega),
      if_pos hover]
  · intro out p hA
    exact DecodeFieldFromValueAux_pos_le hA

theorem claim_C8_witness :
    ([exJson 7] : List (List Nat)).length = ([8] : List Nat).length ∧
    DecodeFieldFromValue cfgPlain exFieldsPlain [8] (exRowPlain 7) =
      .ok [([exJson 7] : List (List Nat)).getD 0 []] ∧
    ([[]] : List (List Nat)).getD 0 [] = ([] : List Nat) ∧
    decodeLoop [1] 0 true [0] [(0, ⟨3, true, 0, 4⟩)] 1 [[]] =
      decodeLoop [1] 0 true [0] [] 1 (writeSlot [[]] (lastIdxOf [0] 0) []) ∧
    DecodeFieldFromValue cfgNull exFieldsNull [0] [] =
      .error .corruptData ∧
    decodeLoop [1] 0 true [0] [(0, ⟨MYSQL_TYPE_VARCHAR, false, 2, 0⟩)] 1
      [[]] = .error .corruptData ∧
    decodeLoop [1] 0 true [0] [(0, ⟨MYSQL_TYPE_VARCHAR, false, 1, 0⟩)] 0
      [[]] = .error .corruptData ∧
    decodeLoop [1] 0 true [0] [(0, ⟨MYSQL_TYPE_BLOB, false, 1, 0⟩)] 0
      [[]] = .error .corruptData ∧
    (9 : Nat) ≤ (exRowPlain 7).length := by
  refine ⟨?_, ?_, ?_, ?_, ?_, ?_, ?_, ?_, ?_⟩
  · exact (claim_C8 cfgPlain exFieldsPlain [8] (exRowPlain 7)).1 [exJson 7]
      (by decide)
  · exact (claim_C8 cfgPlain exFieldsPlain [8] (exRowPlain 7)).2.1
      [exJson 7] 0 (by decide) (by decide) (by decide)
  · exact (claim_C8 cfgNull exFieldsNull [0] [1]).2.2.1 [[]] 0 (by decide)
      (by decide) (by decide) (by decide)
  · exact (claim_C8 cfgNull exFieldsNull [0] [1]).2.2.2.1 0 true 0
      ⟨3, true, 0, 4⟩ [] 1 [[]] (by decide)
  · exact (claim_C8 cfgNull exFieldsNull [0] []).2.2.2.2.2.1 (by decide)
  · exact (claim_C8 cfgNull exFieldsNull [0] [1]).2.2.2.2.2.2.1 0 true 0
      ⟨MYSQL_TYPE_VARCHAR, false, 2, 0⟩ [] 1 [[]] (by decide) (Or.inl rfl)
      (by decide)
  · exact (claim_C8 cfgNull exFieldsNull [0] [1]).2.2.2.2.2.2.2.1 0 true 0
      ⟨MYSQL_TYPE_VARCHAR, false, 1, 0⟩ [] 0 [[]] (by decide) rfl (by decide)
      (by decide)
  · exact (claim_C8 cfgNull exFieldsNull [0] [1]).2.2.2.2.2.2.2.2.1 0 true 0
      ⟨MYSQL_TYPE_BLOB, false, 1, 0⟩ [] 0 [[]] (by decide) (Or.inl rfl)
      (by decide) (by decide)
  · exact (claim_C8 cfgPlain exFieldsPlain [8]
      (exRowPlain 7)).2.2.2.2.2.2.2.2.2 [exJson 7] 9 (by decide)
